import Mathlib

/- Verification of the clean_stream AI engine core (src/AI_Engine/llm):
   the JSON normalization logic of cleaning.py (`_parse_suggestion`), the
   similarity ranking of rag.py (`compute_cosine_similarity`,
   `retrieve_similar`), and the per-row orchestration of cleaning.py
   (`process_row`), with embeddings.py's `save_embedding` and llm.py's
   `generate_cleaning_suggestion` as collaborators.

   Modelling conventions:
   - Python str is Lean String (a list of unicode scalar chars); lone
     surrogates, which Lean Char cannot hold, are rejected by the model
     parser where Python would keep them.
   - JSON numbers are modelled exactly as decimal literals: a mantissa
     (Int) together with a count of fractional digits, so `0.9` is
     (9, 1) and `5` is (5, 0).  Binary floating point is not modelled.
   - Python exceptions are Except values; process_row's try/except that
     logs and re-raises is the propagation of the .error branch.
   - numpy vectors are List Real; np.linalg.norm is Real.sqrt of the sum
     of squares, and np.dot of two different-length 1-D arrays is the
     raised ValueError, i.e. the .error branch of the Except. -/

namespace CleanStream

/-- JSON values as Python's json module produces them: objects keep key
insertion order (Python dict), numbers are decimal literals. -/
inductive JsonValue where
  | null
  | bool (b : Bool)
  | num (mantissa : Int) (fracLen : Nat)
  | str (s : String)
  | arr (items : List JsonValue)
  | obj (fields : List (String × JsonValue))

/-- The JSON whitespace characters accepted by Python's json scanner. -/
def isJsonWs (c : Char) : Bool :=
  c = ' ' || c = '\t' || c = '\n' || c = '\r'

/-- ASCII decimal digit test. -/
def isDig (c : Char) : Bool :=
  48 ≤ c.toNat && c.toNat ≤ 57

/-- The ASCII character of a decimal digit. -/
def digitChar (n : Nat) : Char := Char.ofNat (48 + n)

/-- Decimal digits of a natural number, most significant first, as
Python's str() of an int prints them. -/
def natChars (n : Nat) : List Char :=
  if h : n < 10 then [digitChar n]
  else natChars (n / 10) ++ [digitChar (n % 10)]
decreasing_by
  omega

/-- Left-pad the decimal digits of v with zeros to width f: the
fractional part of a decimal literal. -/
def padDigits (f : Nat) (v : Nat) : List Char :=
  List.replicate (f - (natChars v).length) '0' ++ natChars v

/-- Lowercase hex digit, as Python's json \uXXXX escapes print. -/
def toHexDigit (n : Nat) : Char :=
  if n < 10 then Char.ofNat (48 + n) else Char.ofNat (87 + n)

/-- Value of one hex digit, either case, as the json string parser
accepts. -/
def hexVal (c : Char) : Option Nat :=
  if 48 ≤ c.toNat ∧ c.toNat ≤ 57 then some (c.toNat - 48)
  else if 97 ≤ c.toNat ∧ c.toNat ≤ 102 then some (c.toNat - 87)
  else if 65 ≤ c.toNat ∧ c.toNat ≤ 70 then some (c.toNat - 55)
  else none

/-- The four hex digits of a \uXXXX escape for a code unit below 0x10000. -/
def hex4Chars (v : Nat) : List Char :=
  [toHexDigit (v / 4096 % 16), toHexDigit (v / 256 % 16),
   toHexDigit (v / 16 % 16), toHexDigit (v % 16)]

/-- Combined value of four hex digit chars. -/
def hex4 (a b c d : Char) : Option Nat := do
  let x ← hexVal a
  let y ← hexVal b
  let z ← hexVal c
  let w ← hexVal d
  pure (((x * 16 + y) * 16 + z) * 16 + w)

/-- How Python's json.dumps (default ensure_ascii=True) escapes one
character of a string: backslash and quote get two-char escapes, the
common control characters get their short escapes, other control
characters and every non-ASCII character become \uXXXX, with a UTF-16
surrogate pair for characters beyond 0xFFFF. -/
def escapeChar (c : Char) : List Char :=
  if c = '"' then ['\\', '"']
  else if c = '\\' then ['\\', '\\']
  else if c = '\n' then ['\\', 'n']
  else if c = '\t' then ['\\', 't']
  else if c = '\r' then ['\\', 'r']
  else if c = '\x08' then ['\\', 'b']
  else if c = '\x0c' then ['\\', 'f']
  else if 32 ≤ c.toNat ∧ c.toNat ≤ 126 then [c]
  else if c.toNat < 65536 then '\\' :: 'u' :: hex4Chars c.toNat
  else
    '\\' :: 'u' :: hex4Chars (55296 + (c.toNat - 65536) / 1024) ++
    ('\\' :: 'u' :: hex4Chars (56320 + (c.toNat - 65536) % 1024))

/-- Escape every character of a string body. -/
def escList : List Char → List Char
  | [] => []
  | c :: r => escapeChar c ++ escList r

/-- The characters of json.dumps of a string: quote, escaped body, quote. -/
def dumpsStr (s : String) : List Char :=
  '"' :: escList s.data ++ ['"']

/-- The characters of json.dumps of a number modelled as decimal literal
(mantissa, fracLen): sign, integer digits, then a point and exactly
fracLen fractional digits when fracLen is positive. -/
def dumpsNum (m : Int) (f : Nat) : List Char :=
  (if m < 0 then ['-'] else []) ++ natChars (m.natAbs / 10 ^ f) ++
  (if f = 0 then [] else '.' :: padDigits f (m.natAbs % 10 ^ f))

mutual

/-- Characters of json.dumps with the default separators
(item separator comma-space, key separator colon-space). -/
def dumpsV : JsonValue → List Char
  | .null => ['n', 'u', 'l', 'l']
  | .bool false => ['f', 'a', 'l', 's', 'e']
  | .bool true => ['t', 'r', 'u', 'e']
  | .num m f => dumpsNum m f
  | .str s => dumpsStr s
  | .arr [] => ['[', ']']
  | .arr (x :: xs) => '[' :: dumpsList x xs ++ [']']
  | .obj [] => ['\x7b', '\x7d']
  | .obj (kv :: kvs) => '\x7b' :: dumpsFields kv kvs ++ ['\x7d']
termination_by v => sizeOf v
decreasing_by all_goals (simp <;> omega)

/-- Comma-space separated dump of a nonempty item list. -/
def dumpsList (x : JsonValue) : List JsonValue → List Char
  | [] => dumpsV x
  | y :: ys => dumpsV x ++ ',' :: ' ' :: dumpsList y ys
termination_by xs => sizeOf x + sizeOf xs
decreasing_by all_goals (simp <;> omega)

/-- Comma-space separated dump of a nonempty field list, each field as
quoted key, colon-space, value. -/
def dumpsFields : (String × JsonValue) → List (String × JsonValue) → List Char
  | (k, v), [] => dumpsStr k ++ ':' :: ' ' :: dumpsV v
  | (k, v), p :: ps => dumpsStr k ++ ':' :: ' ' :: dumpsV v ++
      ',' :: ' ' :: dumpsFields p ps
termination_by kv kvs => sizeOf kv + sizeOf kvs
decreasing_by all_goals (simp <;> omega)

end

/-- json.dumps with default arguments, the serializer paired with the
normalizer in the round-trip property. -/
def serialize (v : JsonValue) : String := String.mk (dumpsV v)

mutual

/-- Characters of json.dumps(v, indent=2) at current indentation ind:
containers put every item on its own line indented by ind+2 and close on
a line indented by ind; empty containers stay inline. -/
def dumpsIndV (ind : Nat) : JsonValue → List Char
  | .null => ['n', 'u', 'l', 'l']
  | .bool false => ['f', 'a', 'l', 's', 'e']
  | .bool true => ['t', 'r', 'u', 'e']
  | .num m f => dumpsNum m f
  | .str s => dumpsStr s
  | .arr [] => ['[', ']']
  | .arr (x :: xs) => '[' :: '\n' :: dumpsIndList (ind + 2) x xs ++
      '\n' :: List.replicate ind ' ' ++ [']']
  | .obj [] => ['\x7b', '\x7d']
  | .obj (kv :: kvs) => '\x7b' :: '\n' :: dumpsIndFields (ind + 2) kv kvs ++
      '\n' :: List.replicate ind ' ' ++ ['\x7d']
termination_by v => sizeOf v
decreasing_by all_goals (simp <;> omega)

/-- Lines of an indented nonempty array body, separated by comma-newline. -/
def dumpsIndList (ind : Nat) (x : JsonValue) : List JsonValue → List Char
  | [] => List.replicate ind ' ' ++ dumpsIndV ind x
  | y :: ys => List.replicate ind ' ' ++ dumpsIndV ind x ++
      ',' :: '\n' :: dumpsIndList ind y ys
termination_by xs => sizeOf x + sizeOf xs
decreasing_by all_goals (simp <;> omega)

/-- Lines of an indented nonempty object body. -/
def dumpsIndFields (ind : Nat) : (String × JsonValue) →
    List (String × JsonValue) → List Char
  | (k, v), [] => List.replicate ind ' ' ++ dumpsStr k ++ ':' :: ' ' ::
      dumpsIndV ind v
  | (k, v), p :: ps => List.replicate ind ' ' ++ dumpsStr k ++ ':' :: ' ' ::
      dumpsIndV ind v ++ ',' :: '\n' :: dumpsIndFields ind p ps
termination_by kv kvs => sizeOf kv + sizeOf kvs
decreasing_by all_goals (simp <;> omega)

end

/-- The canonical text of a row in process_row, step 1:
json.dumps(row, indent=2) of the row dict (cleaning.py line 25). -/
def rowText (row : List (String × JsonValue)) : String :=
  String.mk (dumpsIndV 0 (.obj row))

/-- Drop the leading JSON whitespace, as Python's json scanner does
around tokens. -/
def skipWs : List Char → List Char
  | [] => []
  | c :: r => if isJsonWs c then skipWs r else c :: r

/-- Consume an expected literal character sequence (the tail of null,
true, false). -/
def expectChars : List Char → List Char → Option (List Char)
  | [], cs => some cs
  | p :: ps, c :: cs => if c = p then expectChars ps cs else none
  | _ :: _, [] => none

/-- The character of a short escape sequence accepted by json. -/
def shortEscape (e : Char) : Option Char :=
  if e = '"' then some '"'
  else if e = '\\' then some '\\'
  else if e = '/' then some '/'
  else if e = 'b' then some '\x08'
  else if e = 'f' then some '\x0c'
  else if e = 'n' then some '\n'
  else if e = 'r' then some '\r'
  else if e = 't' then some '\t'
  else none

/-- Body of a JSON string after the opening quote, as Python's json
parses it in strict mode: unescaped control characters are rejected,
escapes are the eight short ones plus \uXXXX with UTF-16 surrogate-pair
combination.  A lone surrogate escape, which Python would keep as a
lone-surrogate str character, has no Lean Char and is rejected here.
Fuelled (one unit per produced character) so the recursion is structural;
callers pass the input length plus one, which always suffices. -/
def parseStringBody : Nat → List Char → Option (List Char × List Char)
  | 0, _ => none
  | _ + 1, [] => none
  | fuel + 1, c :: r =>
    if c = '"' then some ([], r)
    else if c = '\\' then
      match r with
      | [] => none
      | e :: r2 =>
        if e = 'u' then
          match r2 with
          | a :: b :: c2 :: d :: r3 =>
            match hex4 a b c2 d with
            | none => none
            | some v =>
              if 55296 ≤ v ∧ v ≤ 56319 then
                match r3 with
                | '\\' :: 'u' :: a2 :: b2 :: c3 :: d2 :: r4 =>
                  match hex4 a2 b2 c3 d2 with
                  | none => none
                  | some w =>
                    if 56320 ≤ w ∧ w ≤ 57343 then
                      (parseStringBody fuel r4).map (fun p =>
                        (Char.ofNat (65536 + (v - 55296) * 1024 + (w - 56320)) :: p.1, p.2))
                    else none
                | _ => none
              else if 56320 ≤ v ∧ v ≤ 57343 then none
              else (parseStringBody fuel r3).map (fun p => (Char.ofNat v :: p.1, p.2))
          | _ => none
        else
          match shortEscape e with
          | none => none
          | some ec => (parseStringBody fuel r2).map (fun p => (ec :: p.1, p.2))
    else if c.toNat < 32 then none
    else (parseStringBody fuel r).map (fun p => (c :: p.1, p.2))

/-- Value of a run of decimal digit characters, most significant first. -/
def digitsVal (ds : List Char) : Nat :=
  ds.foldl (fun a c => a * 10 + (c.toNat - 48)) 0

/-- Integer part of a JSON number: a single 0, or a nonzero digit
followed by more digits (json rejects leading zeros). -/
def parseIntPart : List Char → Option (Nat × List Char)
  | [] => none
  | c :: r =>
    if c = '0' then some (0, r)
    else if isDig c then
      some (digitsVal ((c :: r).takeWhile isDig), (c :: r).dropWhile isDig)
    else none

/-- At least one digit, for the exponent. -/
def parseExpDigits (cs : List Char) : Option (Nat × List Char) :=
  match cs.takeWhile isDig with
  | [] => none
  | ds => some (digitsVal ds, cs.dropWhile isDig)

/-- Exponent value after the e/E of a JSON number: optional sign and at
least one digit. -/
def parseExpVal : List Char → Option (Int × List Char)
  | [] => none
  | c :: r =>
    if c = '+' then
      (parseExpDigits r).map (fun p => ((p.1 : Int), p.2))
    else if c = '-' then
      (parseExpDigits r).map (fun p => (-(p.1 : Int), p.2))
    else
      (parseExpDigits (c :: r)).map (fun p => ((p.1 : Int), p.2))

/-- Fold an exponent into the (mantissa, fracLen) decimal-literal form:
the represented value mant * 10 ^ (ex - flen) is renormalized so that no
exponent remains. -/
def applyExp (mant : Nat) (flen : Nat) (cs : List Char) :
    Option ((Nat × Nat) × List Char) :=
  match cs with
  | c :: r =>
    if c = 'e' ∨ c = 'E' then
      match parseExpVal r with
      | none => none
      | some (ex, cs2) =>
        if (flen : Int) ≤ ex then
          some ((mant * 10 ^ (ex - flen).toNat, 0), cs2)
        else some ((mant, ((flen : Int) - ex).toNat), cs2)
    else some ((mant, flen), cs)
  | [] => some ((mant, flen), cs)

/-- Absolute value of a JSON number as (mantissa, fracLen): integer part,
optional fraction with at least one digit, optional exponent. -/
def parseNumAbs (cs : List Char) : Option ((Nat × Nat) × List Char) :=
  match parseIntPart cs with
  | none => none
  | some (ival, cs2) =>
    match cs2 with
    | '.' :: r =>
      if (r.takeWhile isDig).isEmpty then none
      else
        applyExp (ival * 10 ^ (r.takeWhile isDig).length +
          digitsVal (r.takeWhile isDig)) (r.takeWhile isDig).length
          (r.dropWhile isDig)
    | _ => applyExp ival 0 cs2

/-- A JSON number with optional leading minus sign. -/
def parseNumber : List Char → Option ((Int × Nat) × List Char)
  | [] => none
  | c :: r =>
    if c = '-' then
      (parseNumAbs r).map (fun p => ((-(p.1.1 : Int), p.1.2), p.2))
    else (parseNumAbs (c :: r)).map (fun p => (((p.1.1 : Int), p.1.2), p.2))

/-- Python dict insertion with string key: overwrite the value in place
if the key exists, else append — json object duplicate-key semantics
(last value wins, first position kept). -/
def insertUpd (acc : List (String × JsonValue)) (kv : String × JsonValue) :
    List (String × JsonValue) :=
  if acc.any (fun p => p.1 == kv.1) then
    acc.map (fun p => if p.1 == kv.1 then (p.1, kv.2) else p)
  else acc ++ [kv]

/-- Build the Python dict from the parsed field sequence. -/
def buildDict (ps : List (String × JsonValue)) : List (String × JsonValue) :=
  ps.foldl insertUpd []

mutual

/-- One JSON value, fuelled recursive-descent as Python's json scanner:
leading whitespace is skipped, then dispatch on the first character. -/
def parseValue : Nat → List Char → Option (JsonValue × List Char)
  | 0, _ => none
  | fuel + 1, cs =>
    match skipWs cs with
    | [] => none
    | c :: r =>
      if c = 'n' then (expectChars ['u', 'l', 'l'] r).map (fun r2 => (.null, r2))
      else if c = 't' then
        (expectChars ['r', 'u', 'e'] r).map (fun r2 => (.bool true, r2))
      else if c = 'f' then
        (expectChars ['a', 'l', 's', 'e'] r).map (fun r2 => (.bool false, r2))
      else if c = '"' then
        (parseStringBody (r.length + 1) r).map
          (fun p => (.str (String.mk p.1), p.2))
      else if c = '[' then
        match skipWs r with
        | [] => none
        | c2 :: r2 =>
          if c2 = ']' then some (.arr [], r2)
          else (parseItems fuel r).map (fun p => (.arr p.1, p.2))
      else if c = '\x7b' then
        match skipWs r with
        | [] => none
        | c2 :: r2 =>
          if c2 = '\x7d' then some (.obj [], r2)
          else (parseFields fuel r).map (fun p => (.obj (buildDict p.1), p.2))
      else if c = '-' ∨ isDig c then
        (parseNumber (c :: r)).map (fun p => (.num p.1.1 p.1.2, p.2))
      else none

/-- Nonempty comma-separated item sequence of an array, consuming the
closing bracket. -/
def parseItems : Nat → List Char → Option (List JsonValue × List Char)
  | 0, _ => none
  | fuel + 1, cs =>
    match parseValue fuel cs with
    | none => none
    | some (v, r) =>
      match skipWs r with
      | [] => none
      | c2 :: r2 =>
        if c2 = ',' then (parseItems fuel r2).map (fun p => (v :: p.1, p.2))
        else if c2 = ']' then some ([v], r2)
        else none

/-- Nonempty comma-separated field sequence of an object, consuming the
closing brace: quoted key, colon, value. -/
def parseFields : Nat → List Char →
    Option (List (String × JsonValue) × List Char)
  | 0, _ => none
  | fuel + 1, cs =>
    match skipWs cs with
    | [] => none
    | c0 :: r =>
      if c0 = '"' then
        match parseStringBody (r.length + 1) r with
        | none => none
        | some (kl, r2) =>
          match skipWs r2 with
          | [] => none
          | c1 :: r3 =>
            if c1 = ':' then
              match parseValue fuel r3 with
              | none => none
              | some (v, r4) =>
                match skipWs r4 with
                | [] => none
                | c2 :: r5 =>
                  if c2 = ',' then
                    (parseFields fuel r5).map
                      (fun p => ((String.mk kl, v) :: p.1, p.2))
                  else if c2 = '\x7d' then some ([(String.mk kl, v)], r5)
                  else none
            else none
      else none

end

/-- json.loads: parse the whole string as one JSON value with only
whitespace around it; any parse failure is the raised JSONDecodeError. -/
def json_loads (s : String) : Except Unit JsonValue :=
  match parseValue (2 * s.data.length + 2) s.data with
  | some (v, rest) => if skipWs rest = [] then .ok v else .error ()
  | none => .error ()

/-- Python str.find: index of the first occurrence, if any. -/
def ffindIdx (c : Char) : List Char → Option Nat
  | [] => none
  | x :: xs => if x = c then some 0 else (ffindIdx c xs).map (· + 1)

/-- Python str.rfind: index of the last occurrence, if any. -/
def rfindIdx (c : Char) : List Char → Option Nat
  | [] => none
  | x :: xs =>
    match rfindIdx c xs with
    | some j => some (j + 1)
    | none => if x = c then some 0 else none

/-- The fallback object of cleaning.py line 93, returned when no JSON
can be extracted from the generator output. -/
def fallbackObj (s : String) : JsonValue :=
  .obj [("status", .str "error"),
        ("message", .str "Could not parse LLM response"),
        ("raw_response", .str s)]

/-- cleaning.py `_parse_suggestion` (lines 75-93): parse the whole text
as JSON; failing that, slice from the first brace to the last brace
inclusive and parse the slice; failing that, return the fallback
object.  Total by construction: every failure path ends in a value. -/
def parse_suggestion (s : String) : JsonValue :=
  match json_loads s with
  | .ok v => v
  | .error _ =>
    match ffindIdx '\x7b' s.data with
    | none => fallbackObj s
    | some start =>
      match rfindIdx '\x7d' s.data with
      | none => fallbackObj s
      | some rf =>
        if start < rf + 1 then
          match json_loads (String.mk ((s.data.drop start).take (rf + 1 - start))) with
          | .ok v => v
          | .error _ => fallbackObj s
        else fallbackObj s

/-- Whether a JSON value is an object (a Python dict). -/
def isObj : JsonValue → Bool
  | .obj _ => true
  | _ => false

/-- Python's `x.get(key, None)` on the result of the normalizer
(cleaning.py line 55): defined only when x is a dict, an AttributeError
(the .error branch) otherwise. -/
def dictGet (v : JsonValue) (key : String) : Except Unit (Option JsonValue) :=
  match v with
  | .obj kvs => .ok ((kvs.find? (fun p => p.1 == key)).map (·.2))
  | _ => .error ()

/-- Whether a key list has no duplicates, computed as Python dict keys
are necessarily unique. -/
def nodupKeys : List (String × JsonValue) → Bool
  | [] => true
  | (k, _) :: ps => !(ps.any (fun p => p.1 == k)) && nodupKeys ps

mutual

/-- Well-formed JSON values: those representable as Python objects,
i.e. every object has pairwise distinct keys. -/
def wfB : JsonValue → Bool
  | .null => true
  | .bool _ => true
  | .num _ _ => true
  | .str _ => true
  | .arr items => wfList items
  | .obj kvs => nodupKeys kvs && wfFields kvs
termination_by v => sizeOf v
decreasing_by all_goals (simp <;> omega)

/-- All items well-formed. -/
def wfList : List JsonValue → Bool
  | [] => true
  | x :: xs => wfB x && wfList xs
termination_by l => sizeOf l
decreasing_by all_goals (simp <;> omega)

/-- All field values well-formed. -/
def wfFields : List (String × JsonValue) → Bool
  | [] => true
  | (_, v) :: ps => wfB v && wfFields ps
termination_by l => sizeOf l
decreasing_by all_goals (simp <;> omega)

end

mutual

/-- Fuel consumed by parseValue on the serialization of a value. -/
def needV : JsonValue → Nat
  | .null => 1
  | .bool _ => 1
  | .num _ _ => 1
  | .str _ => 1
  | .arr items => 2 + needItems items
  | .obj kvs => 2 + needFields kvs
termination_by v => sizeOf v
decreasing_by all_goals (simp <;> omega)

/-- Fuel consumed by parseItems on a serialized item sequence. -/
def needItems : List JsonValue → Nat
  | [] => 1
  | x :: xs => 1 + max (needV x) (needItems xs)
termination_by l => sizeOf l
decreasing_by all_goals (simp <;> omega)

/-- Fuel consumed by parseFields on a serialized field sequence. -/
def needFields : List (String × JsonValue) → Nat
  | [] => 1
  | (_, v) :: ps => 1 + max (needV v) (needFields ps)
termination_by l => sizeOf l
decreasing_by all_goals (simp <;> omega)

end

/-- A row of the tenant_embeddings table (models.py TenantEmbedding):
vectors are idealized real sequences. -/
structure EmbeddingRecord where
  tenant_id : String
  content : String
  embedding : List ℝ

/-- A row of the cleaning_results table (models.py CleaningResult). -/
structure CleaningResultRec where
  rid : Nat
  tenant_id : String
  dataset_id : String
  row_data : List (String × JsonValue)
  ai_suggestion : JsonValue
  confidence : Option JsonValue
  status : String

/-- The durable store: the two independent append-only tables. -/
structure DB where
  embeddings : List EmbeddingRecord
  results : List CleaningResultRec

/-- The 1e-8 epsilon added to each norm in rag.py line 15. -/
noncomputable def epsR : ℝ := 1 / 100000000

/-- np.linalg.norm of a 1-D array: the Euclidean norm. -/
noncomputable def vecNorm (v : List ℝ) : ℝ :=
  Real.sqrt (v.map (fun x => x * x)).sum

/-- Dot product of two equal-length 1-D arrays. -/
def dotR (a b : List ℝ) : ℝ :=
  (List.zipWith (fun x y => x * y) a b).sum

/-- rag.py `compute_cosine_similarity` (lines 9-18): normalize each
vector by its norm plus epsilon, then np.dot.  np.dot of 1-D arrays of
different lengths raises ValueError, the .error branch. -/
noncomputable def compute_cosine_similarity (vec1 vec2 : List ℝ) :
    Except Unit ℝ :=
  if vec1.length = vec2.length then
    .ok (dotR (vec1.map (fun x => x / (vecNorm vec1 + epsR)))
              (vec2.map (fun x => x / (vecNorm vec2 + epsR))))
  else .error ()

/-- The similarity value when dimensions agree. -/
noncomputable def simVal (q v : List ℝ) : ℝ :=
  dotR (q.map (fun x => x / (vecNorm q + epsR)))
       (v.map (fun x => x / (vecNorm v + epsR)))

/-- The tenant's scan, in storage order: the (content, embedding)
projection of the rows whose tenant_id matches (rag.py lines 25-30). -/
def tenantPairs (db : DB) (tenant_id : String) : List (String × List ℝ) :=
  (db.embeddings.filter (fun r => r.tenant_id == tenant_id)).map
    (fun r => (r.content, r.embedding))

/-- The similarity loop of rag.py lines 37-40: pair every content with
its similarity to the query, propagating the first raised error. -/
noncomputable def mapSims (q : List ℝ) :
    List (String × List ℝ) → Except Unit (List (String × ℝ))
  | [] => .ok []
  | p :: ps =>
    match compute_cosine_similarity q p.2 with
    | .error e => .error e
    | .ok s =>
      match mapSims q ps with
      | .error e => .error e
      | .ok rest => .ok ((p.1, s) :: rest)

/-- The comparison of `similarities.sort(key=lambda x: x[1],
reverse=True)`: descending by similarity; Python's sort is stable, and
insertion sort with this non-strict relation keeps earlier-scanned
entries first among ties. -/
def descBySim (a b : String × ℝ) : Prop := b.2 ≤ a.2

noncomputable instance : DecidableRel descBySim :=
  fun a b => Real.decidableLE b.2 a.2

/-- rag.py `retrieve_similar` (lines 20-50): scan the tenant's rows,
return [] if none, else rank by similarity and return the contents of
the first top_k; the blanket `except Exception: return []` turns any
raised error into an empty result. -/
noncomputable def retrieve_similar (db : DB) (tenant_id : String)
    (embedding : List ℝ) (top_k : Nat) : List String :=
  let all := tenantPairs db tenant_id
  if all.isEmpty then []
  else
    match mapSims embedding all with
    | .error _ => []
    | .ok sims =>
      ((List.insertionSort descBySim sims).take top_k).map (fun p => p.1)

/-- The external collaborators and the failure injection points of the
durable store, passed explicitly so each run is a pure function. -/
structure Env where
  genEmbedding : String → Except Unit (List ℝ)
  llmCall : String → Except Unit String
  saveEmbeddingOk : Bool
  persistOk : Bool

/-- The prompt template of llm.py lines 21-38, with the context and the
row text interpolated. -/
def userMessage (context row_data : String) : String :=
  "You are a data cleaning expert. Analyze the following data row and provide cleaning suggestions.\n\n## Context (similar previous rows):\n" ++
  context ++
  "\n\n## Row to Clean:\n" ++
  row_data ++
  "\n\nProvide your response as a JSON object with EXACTLY this structure (no markdown, just raw JSON):\n\x7b\n  \"field\": \"name of the field with issues (if any)\",\n  \"issue_type\": \"type of issue (missing, invalid_format, inconsistent, etc.)\",\n  \"suggested_fix\": \"specific suggestion to fix the issue\",\n  \"confidence\": 0.85,\n  \"notes\": \"any additional notes\"\n\x7d\n\nIf there are no issues, still return JSON with field \"status\" set to \"clean\"."

/-- llm.py `generate_cleaning_suggestion` (lines 10-51): call the model
with the prompt; any raised error is absorbed into the canned error
JSON string, so the function itself never raises. -/
def generate_cleaning_suggestion (env : Env) (context row_data : String) :
    String :=
  match env.llmCall (userMessage context row_data) with
  | .ok t => t
  | .error _ => "\x7b\"status\": \"error\", \"message\": \"LLM API call failed\"\x7d"

/-- embeddings.py `save_embedding` (lines 23-37): append the record and
commit; a failing commit raises and persists nothing. -/
def save_embedding (env : Env) (db : DB) (tenant_id content : String)
    (embedding : List ℝ) : Except Unit DB :=
  if env.saveEmbeddingOk then
    .ok ⟨db.embeddings ++ [⟨tenant_id, content, embedding⟩], db.results⟩
  else .error ()

/-- Python's "\n---\n".join(context_docs). -/
def joinSep (sep : String) : List String → String
  | [] => ""
  | [x] => x
  | x :: xs => x ++ sep ++ joinSep sep xs

/-- Observable collaborator interactions of one process_row run: the
inputs of every generate_embedding call, and the context and prompt
passed to the generator when it is reached. -/
structure Trace where
  embedCalls : List String
  contextUsed : Option String
  promptUsed : Option String

/-- The outcome of one process_row run: the returned value or the
propagated exception, the final store state, and the trace. -/
structure POut where
  result : Except Unit (Nat × String × JsonValue)
  db : DB
  trace : Trace

/-- cleaning.py `process_row` (lines 13-73): serialize the row with
json.dumps(row, indent=2); generate the embedding (failure propagates);
save it (failure propagates — there is no inner try around line 33);
retrieve the top-3 similar contents from the state after the save; join
them or fall back to the placeholder; generate and normalize the
suggestion; read .get("confidence") (an AttributeError on a non-dict
propagates); persist the result with status "processed" and return
{id, status, suggestion}. -/
noncomputable def process_row (env : Env) (db : DB)
    (tenant_id dataset_id : String) (row : List (String × JsonValue)) : POut :=
  let text := rowText row
  match env.genEmbedding text with
  | .error _ => ⟨.error (), db, ⟨[text], none, none⟩⟩
  | .ok embedding =>
    match save_embedding env db tenant_id text embedding with
    | .error _ => ⟨.error (), db, ⟨[text], none, none⟩⟩
    | .ok db1 =>
      let context_docs := retrieve_similar db1 tenant_id embedding 3
      let context := if context_docs.isEmpty then
          "No previous examples available."
        else joinSep "\n---\n" context_docs
      let suggestion_text := generate_cleaning_suggestion env context text
      let suggestion_json := parse_suggestion suggestion_text
      let tr : Trace := ⟨[text], some context, some (userMessage context text)⟩
      match dictGet suggestion_json "confidence" with
      | .error _ => ⟨.error (), db1, tr⟩
      | .ok conf =>
        if env.persistOk then
          let cr : CleaningResultRec :=
            ⟨db1.results.length, tenant_id, dataset_id, row,
             suggestion_json, conf, "processed"⟩
          ⟨.ok (cr.rid, "processed", suggestion_json),
           ⟨db1.embeddings, db1.results ++ [cr]⟩, tr⟩
        else ⟨.error (), db1, tr⟩

/-- The characters that may legitimately follow a serialized value
inside a dump: a separator comma, a closing bracket or brace, or the
end of input.  None of them extends a number or literal token. -/
def stopRest (rest : List Char) : Prop :=
  rest = [] ∨ ∃ c r, rest = c :: r ∧ (c = ',' ∨ c = ']' ∨ c = '\x7d')

/-- No brace pair: there is no opening brace strictly before a closing
brace anywhere in the character list. -/
def noBracePair (cs : List Char) : Prop :=
  ∀ j, j < cs.length → ∀ i, i < j →
    ¬(cs.getD i ' ' = '\x7b' ∧ cs.getD j ' ' = '\x7d')

instance (cs : List Char) : Decidable (noBracePair cs) := by
  unfold noBracePair
  infer_instance

/-- Index-tagged ranking order: higher similarity first, and among equal
similarities the smaller scan index first — the order produced by a
stable descending sort over the scan sequence. -/
def lexGE (a b : Nat × String × ℝ) : Prop :=
  b.2.2 < a.2.2 ∨ (a.2.2 = b.2.2 ∧ a.1 ≤ b.1)

/-- Strict version of the ranking order; a list pairwise in this order
has a uniquely determined arrangement. -/
def lexGT (a b : Nat × String × ℝ) : Prop :=
  b.2.2 < a.2.2 ∨ (a.2.2 = b.2.2 ∧ a.1 < b.1)

noncomputable instance : DecidableRel lexGE := fun _ _ => instDecidableOr

instance : IsTotal (Nat × String × ℝ) lexGE where
  total a b := by
    unfold lexGE
    rcases lt_trichotomy a.2.2 b.2.2 with h | h | h
    · exact Or.inr (Or.inl h)
    · rcases Nat.le_total a.1 b.1 with hi | hi
      · exact Or.inl (Or.inr ⟨h, hi⟩)
      · exact Or.inr (Or.inr ⟨h.symm, hi⟩)
    · exact Or.inl (Or.inl h)

instance : IsTrans (Nat × String × ℝ) lexGE where
  trans a b c := by
    unfold lexGE
    rintro (hab | ⟨hab, hab2⟩) (hbc | ⟨hbc, hbc2⟩)
    · exact Or.inl (hbc.trans hab)
    · exact Or.inl (hbc ▸ hab)
    · exact Or.inl (hab.symm ▸ hbc)
    · exact Or.inr ⟨hab.trans hbc, hab2.trans hbc2⟩

/-- The ranking specification: the tenant's scan sequence tagged with
scan indices and similarity values, sorted by the index-tagged order. -/
noncomputable def rankedSpec (db : DB) (tenant_id : String) (q : List ℝ) :
    List (Nat × String × ℝ) :=
  List.insertionSort lexGE
    (((tenantPairs db tenant_id).map (fun p => (p.1, simVal q p.2))).enum)

/- Concrete instances for witnesses and counterexamples. -/

/-- The scenario row of spec section 8. -/
def row0 : List (String × JsonValue) := [("name", .str "Jon"), ("age", .str "")]

/-- Two-field row in one insertion order. -/
def rowA : List (String × JsonValue) := [("a", .num 1 0), ("b", .num 2 0)]

/-- The same key-value pairs in the other insertion order. -/
def rowB : List (String × JsonValue) := [("b", .num 2 0), ("a", .num 1 0)]

/-- An empty store. -/
def dbEmpty : DB := ⟨[], []⟩

/-- A store holding only another tenant's record. -/
noncomputable def dbOther : DB := ⟨[⟨"other", "c", [1]⟩], []⟩

/-- A store where tenant t1 has a well-matched vector and a
mismatched-dimension vector. -/
noncomputable def dbMixed : DB :=
  ⟨[⟨"t1", "good", [1]⟩, ⟨"t1", "bad", [1, 2]⟩], []⟩

/-- Collaborators that all succeed. -/
noncomputable def envOk : Env :=
  ⟨fun _ => .ok [1], fun _ => .ok "x", true, true⟩

/-- Collaborators where the vector-store append fails. -/
noncomputable def envSaveFail : Env :=
  ⟨fun _ => .ok [1], fun _ => .ok "x", false, true⟩

/-- Collaborators where embedding generation fails. -/
noncomputable def envEmbFail : Env :=
  ⟨fun _ => .error (), fun _ => .ok "x", true, true⟩

/- Helper lemmas. -/

/-- The similarity loop raises as soon as any scanned vector's length
differs from the query's. -/
theorem mapSims_error_of_mismatch (q : List ℝ) :
    ∀ l : List (String × List ℝ), (∃ p ∈ l, p.2.length ≠ q.length) →
    mapSims q l = .error () := by
  intro l
  induction l with
  | nil => rintro ⟨p, hp, _⟩; cases hp
  | cons a l ih =>
    rintro ⟨p, hp, hlen⟩
    rcases List.mem_cons.mp hp with rfl | hmem
    · have : ¬ q.length = p.2.length := fun h => hlen h.symm
      simp [mapSims, compute_cosine_similarity, this]
    · rw [mapSims]
      rcases h : compute_cosine_similarity q a.2 with e | s
      · rfl
      · rw [ih ⟨p, hmem, hlen⟩]

/-- An indent-dumped object always begins with an opening brace. -/
theorem dumpsIndV_obj_head (ind : Nat) (kvs : List (String × JsonValue)) :
    ∃ t, dumpsIndV ind (.obj kvs) = '\x7b' :: t := by
  cases kvs with
  | nil =>
    refine ⟨['\x7d'], ?_⟩
    simp [dumpsIndV]
  | cons kv kvs =>
    refine ⟨'\n' :: (dumpsIndFields (ind + 2) kv kvs ++
      '\n' :: (List.replicate ind ' ' ++ ['\x7d'])), ?_⟩
    simp [dumpsIndV]

/-- The serialized row text is never the placeholder string. -/
theorem rowText_ne_placeholder (row : List (String × JsonValue)) :
    rowText row ≠ "No previous examples available." := by
  obtain ⟨t, ht⟩ := dumpsIndV_obj_head 0 row
  simp only [rowText, ht]
  intro h
  have := congrArg String.data h
  simp at this

/-- Python str.find: a found index is in range and holds the character. -/
theorem ffindIdx_spec (c : Char) :
    ∀ (l : List Char) (i : Nat), ffindIdx c l = some i →
    i < l.length ∧ l.getD i ' ' = c := by
  intro l
  induction l with
  | nil => intro i h; cases h
  | cons x xs ih =>
    intro i h
    rw [ffindIdx] at h
    by_cases hx : x = c
    · simp [hx] at h
      subst h
      simp [hx]
    · simp [hx] at h
      obtain ⟨j, hj, rfl⟩ := h
      obtain ⟨h1, h2⟩ := ih j hj
      exact ⟨by simpa using h1, by simpa using h2⟩

/-- Python str.rfind: a found index is in range and holds the character. -/
theorem rfindIdx_spec (c : Char) :
    ∀ (l : List Char) (j : Nat), rfindIdx c l = some j →
    j < l.length ∧ l.getD j ' ' = c := by
  intro l
  induction l with
  | nil => intro j h; cases h
  | cons x xs ih =>
    intro j h
    rw [rfindIdx] at h
    rcases hr : rfindIdx c xs with _ | j2
    · rw [hr] at h
      by_cases hx : x = c
      · simp [hx] at h
        subst h
        simp [hx]
      · simp [hx] at h
    · rw [hr] at h
      simp at h
      subst h
      obtain ⟨h1, h2⟩ := ih j2 hr
      exact ⟨by simpa using h1, by simpa using h2⟩

/- Claim C9. -/

/-- C9: multi-tenant isolation as noninterference — retrieve_similar
reads only the rows whose tenant_id equals the queried tenant, so any
change confined to other tenants' records leaves its output unchanged. -/
theorem c9_tenant_noninterference (db1 db2 : DB) (t : String) (q : List ℝ)
    (k : Nat)
    (h : db1.embeddings.filter (fun r => r.tenant_id == t) =
         db2.embeddings.filter (fun r => r.tenant_id == t)) :
    retrieve_similar db1 t q k = retrieve_similar db2 t q k := by
  unfold retrieve_similar tenantPairs
  rw [h]

/-- C9 witness: adding another tenant's record to an empty store does
not change tenant t1's retrieval. -/
theorem c9_witness :
    retrieve_similar dbOther "t1" [1] 3 = retrieve_similar dbEmpty "t1" [1] 3 :=
  c9_tenant_noninterference dbOther dbEmpty "t1" [1] 3 rfl

/- Claim C3. -/

/-- C3 counterexample: tenant t1's set holds a well-matched vector and a
vector of mismatched dimension; the call returns the empty list normally
— the internal ValueError is swallowed by the blanket except of rag.py
line 46, so no DimensionMismatchError reaches the caller, and the
matching record is silently dropped with the rest. -/
theorem c3_counterexample_mismatch_returns_empty :
    retrieve_similar dbMixed "t1" [1] 1 = [] := rfl

/-- C3 amended: when any stored vector of the tenant differs in length
from the query, retrieve_similar absorbs the raised error and returns
the empty list; no DimensionMismatchError type exists in the code. -/
theorem c3_amended_mismatch_empty (db : DB) (t : String) (q : List ℝ)
    (k : Nat) (h : ∃ p ∈ tenantPairs db t, p.2.length ≠ q.length) :
    retrieve_similar db t q k = [] := by
  have herr := mapSims_error_of_mismatch q (tenantPairs db t) h
  obtain ⟨p, hp, _⟩ := h
  have hne : (tenantPairs db t).isEmpty = false := by
    cases hl : tenantPairs db t with
    | nil => rw [hl] at hp; cases hp
    | cons a l => rfl
  simp [retrieve_similar, hne, herr]

/-- C3 amended witness at the concrete mixed store. -/
theorem c3_amended_witness : retrieve_similar dbMixed "t1" [1] 1 = [] :=
  c3_amended_mismatch_empty dbMixed "t1" [1] 1
    ⟨("bad", [1, 2]), by simp [dbMixed, tenantPairs], by simp⟩

/- Claim C2. -/

/-- C2 counterexample: with a failing vector-store append and otherwise
healthy collaborators, process_row raises instead of continuing: the
result is the propagated error, no cleaning result is persisted, and the
generator is never reached (no context was ever formed). -/
theorem c2_counterexample_append_failure_aborts :
    (process_row envSaveFail dbEmpty "t1" "d1" row0).result = .error () ∧
    (process_row envSaveFail dbEmpty "t1" "d1" row0).db.results = [] ∧
    (process_row envSaveFail dbEmpty "t1" "d1" row0).trace.contextUsed = none :=
  ⟨rfl, rfl, rfl⟩

/-- C2 amended: a failing vector-store append is not absorbed — there is
no try around cleaning.py line 33, so the exception propagates through
the log-and-reraise handler: process_row returns the error, the store is
left unchanged, and suggestion generation, normalization and persistence
never run. -/
theorem c2_amended_append_failure_propagates (env : Env) (db : DB)
    (t ds : String) (row : List (String × JsonValue)) (v : List ℝ)
    (hemb : env.genEmbedding (rowText row) = .ok v)
    (hsave : env.saveEmbeddingOk = false) :
    (process_row env db t ds row).result = .error () ∧
    (process_row env db t ds row).db = db ∧
    (process_row env db t ds row).trace.contextUsed = none := by
  simp [process_row, save_embedding, hemb, hsave]

/-- C2 amended witness at the concrete inputs. -/
theorem c2_amended_witness :
    (process_row envSaveFail dbEmpty "t1" "d1" row0).result = .error () ∧
    (process_row envSaveFail dbEmpty "t1" "d1" row0).db = dbEmpty ∧
    (process_row envSaveFail dbEmpty "t1" "d1" row0).trace.contextUsed = none :=
  c2_amended_append_failure_propagates envSaveFail dbEmpty "t1" "d1" row0
    [1] rfl rfl

/- Claim C8. -/

/-- C8: a failing embedding generation is surfaced to the caller — the
log-and-reraise handler of cleaning.py lines 71-73 re-raises — the
embedding collaborator was called exactly once (no retry), and nothing
was written to either table: the store is exactly as before the call. -/
theorem c8_embedding_failure_fatal (env : Env) (db : DB) (t ds : String)
    (row : List (String × JsonValue))
    (hemb : env.genEmbedding (rowText row) = .error ()) :
    (process_row env db t ds row).result = .error () ∧
    (process_row env db t ds row).db = db ∧
    (process_row env db t ds row).trace.embedCalls = [rowText row] := by
  simp [process_row, hemb]

/-- C8 witness at the concrete inputs. -/
theorem c8_witness :
    (process_row envEmbFail dbEmpty "t1" "d1" row0).result = .error () ∧
    (process_row envEmbFail dbEmpty "t1" "d1" row0).db = dbEmpty ∧
    (process_row envEmbFail dbEmpty "t1" "d1" row0).trace.embedCalls =
      [rowText row0] :=
  c8_embedding_failure_fatal envEmbFail dbEmpty "t1" "d1" row0 rfl

/- Claim C1. -/

/-- After a successful save, the tenant whose prior record set was empty
retrieves exactly the just-saved row text. -/
theorem retrieve_after_first_save (db : DB) (t : String) (text : String)
    (v : List ℝ)
    (hprior : db.embeddings.filter (fun r => r.tenant_id == t) = []) :
    retrieve_similar ⟨db.embeddings ++ [⟨t, text, v⟩], db.results⟩ t v 3 =
      [text] := by
  have hpairs : tenantPairs ⟨db.embeddings ++ [⟨t, text, v⟩], db.results⟩ t =
      [(text, v)] := by
    simp [tenantPairs, List.filter_append, hprior]
  simp [retrieve_similar, hpairs, mapSims, compute_cosine_similarity,
    List.insertionSort, List.orderedInsert]

/-- C1 counterexample: tenant t1 has no prior stored embeddings, every
collaborator succeeds, yet the context passed to the generator is not
the placeholder — the embedding is saved at step 3 before retrieval at
step 4, so retrieval finds the just-saved row itself. -/
theorem c1_counterexample_placeholder_not_used :
    dbEmpty.embeddings.filter (fun r => r.tenant_id == "t1") = [] ∧
    (process_row envOk dbEmpty "t1" "d1" row0).trace.contextUsed ≠
      some "No previous examples available." := by
  refine ⟨rfl, ?_⟩
  have hctx : (process_row envOk dbEmpty "t1" "d1" row0).trace.contextUsed =
      some (rowText row0) := rfl
  rw [hctx]
  simp [rowText_ne_placeholder row0]

/-- C1 amended: for a tenant with no prior stored embeddings and a
successful embedding and save, retrieval sees the row just written by
step 3, so the context is the row's own serialized text; since that text
is a dumped object it is never the placeholder, which would be used only
if retrieval returned no contents (e.g. on a retrieval error or a failed
save path). -/
theorem c1_amended_context_is_own_row (env : Env) (db : DB) (t ds : String)
    (row : List (String × JsonValue)) (v : List ℝ)
    (hemb : env.genEmbedding (rowText row) = .ok v)
    (hsave : env.saveEmbeddingOk = true)
    (hprior : db.embeddings.filter (fun r => r.tenant_id == t) = []) :
    (process_row env db t ds row).trace.contextUsed = some (rowText row) ∧
    rowText row ≠ "No previous examples available." := by
  refine ⟨?_, rowText_ne_placeholder row⟩
  have hret := retrieve_after_first_save db t (rowText row) v hprior
  simp only [process_row, save_embedding, hemb, hsave, if_true, hret]
  split
  · simp [joinSep]
  · split <;> simp [joinSep]

/-- C1 amended witness at the concrete inputs. -/
theorem c1_amended_witness :
    (process_row envOk dbEmpty "t1" "d1" row0).trace.contextUsed =
      some (rowText row0) ∧
    rowText row0 ≠ "No previous examples available." :=
  c1_amended_context_is_own_row envOk dbEmpty "t1" "d1" row0 [1] rfl rfl rfl

/- Claim C4. -/

/-- C4 counterexample: two rows with exactly the same key-value pairs in
different insertion orders serialize to different texts —
json.dumps(row, indent=2) is called without sort_keys, so key order
follows dict insertion order. -/
theorem c4_counterexample_key_order_sensitive :
    List.Perm rowA rowB ∧ rowText rowA ≠ rowText rowB := by
  constructor
  · exact List.Perm.swap _ _ _
  · simp [rowA, rowB, rowText, dumpsIndV, dumpsIndFields, dumpsStr, escList,
      escapeChar, dumpsNum, natChars, padDigits, digitChar]

/-- C4 amended: process_row serializes the row once with
json.dumps(row, indent=2) — insertion-order-preserving, not key-sorted —
and that single text is both the embedding input and the content
appended to the vector store. -/
theorem c4_amended_single_text_embed_and_store (env : Env) (db : DB)
    (t ds : String) (row : List (String × JsonValue)) (v : List ℝ)
    (hemb : env.genEmbedding (rowText row) = .ok v)
    (hsave : env.saveEmbeddingOk = true) :
    (process_row env db t ds row).trace.embedCalls = [rowText row] ∧
    (process_row env db t ds row).db.embeddings =
      db.embeddings ++ [⟨t, rowText row, v⟩] := by
  simp only [process_row, save_embedding, hemb, hsave, if_true]
  constructor
  · split
    · simp
    · split <;> simp
  · split
    · simp
    · split <;> simp

/-- C4 amended witness at the concrete inputs. -/
theorem c4_amended_witness :
    (process_row envOk dbEmpty "t1" "d1" row0).trace.embedCalls =
      [rowText row0] ∧
    (process_row envOk dbEmpty "t1" "d1" row0).db.embeddings =
      dbEmpty.embeddings ++ [⟨"t1", rowText row0, [1]⟩] :=
  c4_amended_single_text_embed_and_store envOk dbEmpty "t1" "d1" row0 [1]
    rfl rfl

/- Claim C6. -/

/-- C6: the normalizer is total by construction — every branch of
parse_suggestion produces a value — and on any input that is not valid
JSON and contains no opening brace strictly before a closing brace, it
returns exactly the fallback object of cleaning.py line 93. -/
theorem c6_normalizer_fallback (s : String)
    (herr : json_loads s = .error ()) (hnb : noBracePair s.data) :
    parse_suggestion s = fallbackObj s := by
  unfold parse_suggestion
  rw [herr]
  rcases hf : ffindIdx '\x7b' s.data with _ | st
  · rfl
  · rcases hr : rfindIdx '\x7d' s.data with _ | rf
    · rfl
    · have hnc : ¬ st < rf + 1 := by
        intro hlt
        obtain ⟨hst, hcs⟩ := ffindIdx_spec '\x7b' s.data st hf
        obtain ⟨hrf, hcr⟩ := rfindIdx_spec '\x7d' s.data rf hr
        have hne : st ≠ rf := by
          intro h
          rw [h, hcr] at hcs
          cases hcs
        have hstrict : st < rf := by omega
        exact hnb rf hrf st hstrict ⟨hcs, hcr⟩
      simp [hnc]

/-- C6 witness: a brace-free non-JSON string maps to the fallback. -/
theorem c6_witness : parse_suggestion "hello" = fallbackObj "hello" :=
  c6_normalizer_fallback "hello" rfl (by decide)

/- Claim C10. -/

/-- C10: any input that parses as JSON whose value is not an object is
returned verbatim by stage 1 of the normalizer — in particular it is not
the fallback object — and the confidence lookup of cleaning.py line 55
is defined only on objects: on this value it is the AttributeError. -/
theorem c10_nonobject_verbatim (s : String) (v : JsonValue)
    (hok : json_loads s = .ok v) (hno : isObj v = false) :
    parse_suggestion s = v ∧ parse_suggestion s ≠ fallbackObj s ∧
    dictGet v "confidence" = .error () := by
  have h1 : parse_suggestion s = v := by
    unfold parse_suggestion
    rw [hok]
  refine ⟨h1, ?_, ?_⟩
  · rw [h1]
    cases v <;> simp_all [isObj, fallbackObj]
  · cases v <;> simp_all [isObj, dictGet]

/-- C10 witness: the bare number 5 comes back verbatim, and the
confidence lookup on it is the AttributeError. -/
theorem c10_witness :
    parse_suggestion "5" = .num 5 0 ∧
    parse_suggestion "5" ≠ fallbackObj "5" ∧
    dictGet (.num 5 0) "confidence" = .error () :=
  c10_nonobject_verbatim "5" (.num 5 0) rfl rfl

/- Claim C5. -/

/-- When every scanned vector matches the query's dimension, the
similarity loop succeeds and yields each content with its similarity. -/
theorem mapSims_ok (q : List ℝ) :
    ∀ l : List (String × List ℝ), (∀ p ∈ l, p.2.length = q.length) →
    mapSims q l = .ok (l.map (fun p => (p.1, simVal q p.2))) := by
  intro l
  induction l with
  | nil => intro _; rfl
  | cons a l ih =>
    intro h
    have hq : q.length = a.2.length := (h a (List.mem_cons_self a l)).symm
    rw [mapSims]
    simp [compute_cosine_similarity, hq,
      ih (fun p hp => h p (List.mem_cons_of_mem a hp)), simVal]

/-- Inserting an element whose scan index is below every index of an
index-sorted list: the unindexed descending insertion and the
index-tagged lexicographic insertion land in the same position. -/
theorem orderedInsert_snd (a : Nat × String × ℝ) :
    ∀ l : List (Nat × String × ℝ), (∀ b ∈ l, a.1 < b.1) →
    List.orderedInsert descBySim a.2 (l.map Prod.snd) =
      (List.orderedInsert lexGE a l).map Prod.snd := by
  intro l
  induction l with
  | nil => intro _; rfl
  | cons b l ih =>
    intro h
    have hab : descBySim a.2 b.2 ↔ lexGE a b := by
      unfold descBySim lexGE
      constructor
      · intro hle
        rcases lt_or_eq_of_le hle with hlt | heq
        · exact Or.inl hlt
        · exact Or.inr ⟨heq.symm, le_of_lt (h b (List.mem_cons_self b l))⟩
      · rintro (hlt | ⟨heq, _⟩)
        · exact le_of_lt hlt
        · exact le_of_eq heq.symm
    simp only [List.map_cons, List.orderedInsert]
    by_cases hc : lexGE a b
    · rw [if_pos hc, if_pos (hab.mpr hc)]
      simp
    · rw [if_neg hc, if_neg (fun hd => hc (hab.mp hd))]
      rw [List.map_cons, ih (fun p hp => h p (List.mem_cons_of_mem b hp))]

/-- On a list with strictly increasing scan indices, the stable
descending sort of the untagged pairs is the untagging of the
lexicographic sort of the tagged pairs. -/
theorem insertionSort_snd :
    ∀ l : List (Nat × String × ℝ),
    List.Pairwise (fun a b => a.1 < b.1) l →
    List.insertionSort descBySim (l.map Prod.snd) =
      (List.insertionSort lexGE l).map Prod.snd := by
  intro l
  induction l with
  | nil => intro _; rfl
  | cons a l ih =>
    intro h
    rw [List.map_cons, List.insertionSort, List.insertionSort, ih h.of_cons]
    apply orderedInsert_snd
    intro b hb
    exact (List.pairwise_cons.mp h).1 b
      (((List.perm_insertionSort lexGE l).mem_iff).mp hb)

/-- Scan indices in an enumerated list are strictly increasing. -/
theorem pairwise_fst_lt_enumFrom {α : Type} :
    ∀ (n : Nat) (l : List α),
    List.Pairwise (fun a b => a.1 < b.1) (List.enumFrom n l) := by
  intro n l
  induction l generalizing n with
  | nil => exact List.Pairwise.nil
  | cons x xs ih =>
    rw [List.enumFrom]
    refine List.Pairwise.cons ?_ (ih (n + 1))
    rintro ⟨i, y⟩ hb
    exact Nat.lt_of_succ_le (List.mem_enumFrom hb).1

/-- The ranked specification carries pairwise distinct scan indices. -/
theorem rankedSpec_pairwise_ne (db : DB) (t : String) (q : List ℝ) :
    List.Pairwise (fun a b => a.1 ≠ b.1) (rankedSpec db t q) := by
  have hperm := List.perm_insertionSort lexGE
    (((tenantPairs db t).map (fun p => (p.1, simVal q p.2))).enum)
  have hnodup : ((((tenantPairs db t).map
      (fun p => (p.1, simVal q p.2))).enum).map Prod.fst).Nodup := by
    rw [List.enum_map_fst]
    exact List.nodup_range _
  have : ((rankedSpec db t q).map Prod.fst).Nodup :=
    ((hperm.map Prod.fst).symm).nodup hnodup
  exact List.pairwise_map.mp this

/-- The ranked specification is strictly sorted in the index-tagged
order: descending similarity, ties by ascending scan index. -/
theorem rankedSpec_pairwise_lexGT (db : DB) (t : String) (q : List ℝ) :
    List.Pairwise lexGT (rankedSpec db t q) := by
  have h1 : List.Pairwise lexGE (rankedSpec db t q) :=
    List.sorted_insertionSort lexGE _
  refine (h1.and (rankedSpec_pairwise_ne db t q)).imp ?_
  rintro a b ⟨hge | ⟨heq, hle⟩, hne⟩
  · exact Or.inl hge
  · exact Or.inr ⟨heq, lt_of_le_of_ne hle hne⟩

/-- C5: with all stored vectors of the query's dimension,
retrieve_similar returns exactly the contents of the first top_k entries
of the ranked specification — min(top_k, n) of them, in descending
similarity order with first-seen tie-break, and (being a pure function
of the store) deterministically so. -/
theorem c5_retrieve_count_and_order (db : DB) (t : String) (q : List ℝ)
    (k : Nat) (hdim : ∀ p ∈ tenantPairs db t, p.2.length = q.length) :
    retrieve_similar db t q k =
      ((rankedSpec db t q).take k).map (fun e => e.2.1) ∧
    (retrieve_similar db t q k).length = min k (tenantPairs db t).length ∧
    List.Pairwise lexGT (rankedSpec db t q) := by
  have hmain : retrieve_similar db t q k =
      ((rankedSpec db t q).take k).map (fun e => e.2.1) := by
    rcases hl : tenantPairs db t with _ | ⟨p, ps⟩
    · simp [retrieve_similar, rankedSpec, hl, List.insertionSort]
    · have hne : (tenantPairs db t).isEmpty = false := by rw [hl]; rfl
      have hmok := mapSims_ok q (tenantPairs db t) hdim
      have hkey : List.insertionSort descBySim
          ((tenantPairs db t).map (fun p => (p.1, simVal q p.2))) =
          (rankedSpec db t q).map Prod.snd := by
        have hs := insertionSort_snd
          (((tenantPairs db t).map (fun p => (p.1, simVal q p.2))).enum)
          (by rw [List.enum]; exact pairwise_fst_lt_enumFrom 0 _)
        rw [List.enum_map_snd] at hs
        exact hs
      simp only [retrieve_similar, hne, Bool.false_eq_true, if_false, hmok]
      rw [hkey, ← List.map_take, List.map_map]
      rfl
  have hlen : (rankedSpec db t q).length = (tenantPairs db t).length := by
    have hperm := List.perm_insertionSort lexGE
      (((tenantPairs db t).map (fun p => (p.1, simVal q p.2))).enum)
    rw [rankedSpec, hperm.length_eq, List.enum_length, List.length_map]
  refine ⟨hmain, ?_, rankedSpec_pairwise_lexGT db t q⟩
  rw [hmain, List.length_map, List.length_take, hlen]

/-- C5 witness: on the empty store the call returns min(3, 0) = 0
entries. -/
theorem c5_witness :
    (retrieve_similar dbEmpty "t1" [1] 3).length =
      min 3 (tenantPairs dbEmpty "t1").length :=
  (c5_retrieve_count_and_order dbEmpty "t1" [1] 3
    (by simp [tenantPairs, dbEmpty])).2.1

/- Claim C7: round-trip lemma tower (bridge lemmas follow further down,
after the character, string and number layers they build on). -/

/-- A character's scalar value is outside the surrogate range and below
0x110000. -/
theorem char_valid_nat (c : Char) :
    c.toNat < 55296 ∨ (57343 < c.toNat ∧ c.toNat < 1114112) := c.valid

/-- A digit character's numeric bounds. -/
theorem isDig_bounds {c : Char} (h : isDig c = true) :
    48 ≤ c.toNat ∧ c.toNat ≤ 57 := by
  simpa [isDig] using h

/-- Characters with scalar values outside the digit band differ from
every digit character. -/
theorem ne_of_isDig {c lit : Char} (h : isDig c = true)
    (hl : lit.toNat < 48 ∨ 57 < lit.toNat) : c ≠ lit := by
  intro he
  obtain ⟨h1, h2⟩ := isDig_bounds h
  subst he
  omega

/-- skipWs leaves a non-whitespace head alone. -/
theorem skipWs_not_ws {c : Char} (h : isJsonWs c = false) (r : List Char) :
    skipWs (c :: r) = c :: r := by
  simp [skipWs, h]

/-- The hex digit printer and reader agree. -/
theorem hexVal_toHexDigit : ∀ d, d < 16 → hexVal (toHexDigit d) = some d := by
  decide

/-- Reading back the four printed hex digits of a code unit. -/
theorem hex4_hex4Chars (v : Nat) (hv : v < 65536) :
    hex4 (toHexDigit (v / 4096 % 16)) (toHexDigit (v / 256 % 16))
      (toHexDigit (v / 16 % 16)) (toHexDigit (v % 16)) = some v := by
  rw [hex4]
  rw [hexVal_toHexDigit _ (Nat.mod_lt _ (by norm_num)),
      hexVal_toHexDigit _ (Nat.mod_lt _ (by norm_num)),
      hexVal_toHexDigit _ (Nat.mod_lt _ (by norm_num)),
      hexVal_toHexDigit _ (Nat.mod_lt _ (by norm_num))]
  simp only [Option.bind_eq_bind, Option.some_bind]
  congr 1
  omega

/-- A plain (unescaped, non-control) character is consumed as itself. -/
theorem psb_plain (fuel : Nat) (c : Char) (r : List Char) (h1 : ¬ c = '"')
    (h2 : ¬ c = '\\') (h3 : ¬ c.toNat < 32) :
    parseStringBody (fuel + 1) (c :: r) =
      (parseStringBody fuel r).map (fun p => (c :: p.1, p.2)) := by
  simp only [parseStringBody]
  rw [if_neg h1, if_neg h2, if_neg h3]

/-- A non-surrogate \uXXXX escape is consumed as its scalar value. -/
theorem psb_u (fuel : Nat) (a b c2 d : Char) (r : List Char) (v : Nat)
    (hhex : hex4 a b c2 d = some v) (hs1 : ¬ (55296 ≤ v ∧ v ≤ 56319))
    (hs2 : ¬ (56320 ≤ v ∧ v ≤ 57343)) :
    parseStringBody (fuel + 1) ('\\' :: 'u' :: a :: b :: c2 :: d :: r) =
      (parseStringBody fuel r).map
        (fun p => (Char.ofNat v :: p.1, p.2)) := by
  simp only [parseStringBody]
  simp [hhex, hs1, hs2]

/-- A surrogate-pair escape is consumed as the combined scalar value. -/
theorem psb_u_pair (fuel : Nat) (a b c2 d a2 b2 c3 d2 : Char)
    (r : List Char) (v w : Nat)
    (hhex1 : hex4 a b c2 d = some v) (hv : 55296 ≤ v ∧ v ≤ 56319)
    (hhex2 : hex4 a2 b2 c3 d2 = some w) (hw : 56320 ≤ w ∧ w ≤ 57343) :
    parseStringBody (fuel + 1)
      ('\\' :: 'u' :: a :: b :: c2 :: d :: '\\' :: 'u' :: a2 :: b2 :: c3 :: d2 :: r) =
      (parseStringBody fuel r).map
        (fun p => (Char.ofNat (65536 + (v - 55296) * 1024 + (w - 56320)) :: p.1, p.2)) := by
  simp only [parseStringBody]
  simp [hhex1, hv, hhex2, hw]

/-- One escaped character reads back as that character, continuing with
whatever follows. -/
theorem psb_escape (c : Char) (fuel : Nat) (l : List Char) :
    parseStringBody (fuel + 1) (escapeChar c ++ l) =
      (parseStringBody fuel l).map (fun p => (c :: p.1, p.2)) := by
  unfold escapeChar
  by_cases h1 : c = '"'
  · subst h1; rfl
  by_cases h2 : c = '\\'
  · subst h2; rw [if_neg h1]; rfl
  by_cases h3 : c = '\n'
  · subst h3; rw [if_neg h1, if_neg h2]; rfl
  by_cases h4 : c = '\t'
  · subst h4; rw [if_neg h1, if_neg h2, if_neg h3]; rfl
  by_cases h5 : c = '\r'
  · subst h5; rw [if_neg h1, if_neg h2, if_neg h3, if_neg h4]; rfl
  by_cases h6 : c = '\x08'
  · subst h6; rw [if_neg h1, if_neg h2, if_neg h3, if_neg h4, if_neg h5]; rfl
  by_cases h7 : c = '\x0c'
  · subst h7
    rw [if_neg h1, if_neg h2, if_neg h3, if_neg h4, if_neg h5, if_neg h6]
    rfl
  by_cases h8 : 32 ≤ c.toNat ∧ c.toNat ≤ 126
  · rw [if_neg h1, if_neg h2, if_neg h3, if_neg h4, if_neg h5, if_neg h6,
      if_neg h7, if_pos h8]
    have hc1 : ¬ c.toNat < 32 := by omega
    simp only [List.cons_append, List.nil_append]
    exact psb_plain fuel c l h1 h2 hc1
  by_cases h9 : c.toNat < 65536
  · rw [if_neg h1, if_neg h2, if_neg h3, if_neg h4, if_neg h5, if_neg h6,
      if_neg h7, if_neg h8, if_pos h9]
    have hval := char_valid_nat c
    have hs1 : ¬ (55296 ≤ c.toNat ∧ c.toNat ≤ 56319) := by omega
    have hs2 : ¬ (56320 ≤ c.toNat ∧ c.toNat ≤ 57343) := by omega
    simp only [hex4Chars, List.cons_append, List.nil_append]
    rw [psb_u fuel _ _ _ _ l c.toNat (hex4_hex4Chars c.toNat h9) hs1 hs2,
      Char.ofNat_toNat]
  · rw [if_neg h1, if_neg h2, if_neg h3, if_neg h4, if_neg h5, if_neg h6,
      if_neg h7, if_neg h8, if_neg h9]
    have hval := char_valid_nat c
    have hup : c.toNat < 1114112 := by omega
    have hlo : 65536 ≤ c.toNat := by omega
    have hhi1 : 55296 + (c.toNat - 65536) / 1024 < 65536 := by omega
    have hlo1 : 56320 + (c.toNat - 65536) % 1024 < 65536 := by omega
    have hhrange : 55296 ≤ 55296 + (c.toNat - 65536) / 1024 ∧
        55296 + (c.toNat - 65536) / 1024 ≤ 56319 := by omega
    have hlrange : 56320 ≤ 56320 + (c.toNat - 65536) % 1024 ∧
        56320 + (c.toNat - 65536) % 1024 ≤ 57343 := by omega
    simp only [hex4Chars, List.cons_append, List.append_assoc,
      List.nil_append]
    rw [psb_u_pair fuel _ _ _ _ _ _ _ _ l _ _ (hex4_hex4Chars _ hhi1) hhrange
      (hex4_hex4Chars _ hlo1) hlrange]
    have hcomb : 65536 + (55296 + (c.toNat - 65536) / 1024 - 55296) * 1024 +
        (56320 + (c.toNat - 65536) % 1024 - 56320) = c.toNat := by omega
    rw [hcomb, Char.ofNat_toNat]

/-- Every escape sequence is nonempty. -/
theorem escapeChar_length_pos (c : Char) : 1 ≤ (escapeChar c).length := by
  unfold escapeChar
  split_ifs <;> simp [hex4Chars]

/-- Escaping never shrinks a string. -/
theorem escList_length_ge : ∀ l : List Char, l.length ≤ (escList l).length := by
  intro l
  induction l with
  | nil => simp [escList]
  | cons c l ih =>
    rw [escList, List.length_append, List.length_cons]
    have := escapeChar_length_pos c
    omega

/-- Digit characters are digits. -/
theorem digitChar_isDig : ∀ d, d < 10 → isDig (digitChar d) = true := by
  decide

/-- Numeric value of a digit character. -/
theorem digitChar_toNat : ∀ d, d < 10 → (digitChar d).toNat = 48 + d := by
  decide

/-- Nonzero digits print as nonzero characters. -/
theorem digitChar_ne_zero : ∀ d, d < 10 → 1 ≤ d → ¬ digitChar d = '0' := by
  decide

/-- A number below ten prints as its single digit. -/
theorem natChars_lt_ten {n : Nat} (h : n < 10) :
    natChars n = [digitChar n] := by
  rw [natChars]
  simp [h]

/-- A number of ten or more prints as its leading digits then its last
digit. -/
theorem natChars_ge_ten {n : Nat} (h : ¬ n < 10) :
    natChars n = natChars (n / 10) ++ [digitChar (n % 10)] := by
  rw [natChars]
  simp [h]

/-- Every printed character of a number is a digit. -/
theorem natChars_all_digits : ∀ n, ∀ c ∈ natChars n, isDig c = true := by
  intro n
  induction n using Nat.strong_induction_on with
  | _ n ih =>
    by_cases h : n < 10
    · rw [natChars_lt_ten h]
      intro c hc
      rw [List.mem_singleton] at hc
      subst hc
      exact digitChar_isDig n h
    · rw [natChars_ge_ten h]
      intro c hc
      rcases List.mem_append.mp hc with hc | hc
      · exact ih (n / 10) (by omega) c hc
      · rw [List.mem_singleton] at hc
        subst hc
        exact digitChar_isDig _ (Nat.mod_lt _ (by norm_num))

/-- The printed digits of a number form a nonempty list headed by a
digit character that is nonzero whenever the number is positive. -/
theorem natChars_head : ∀ n, ∃ c t, natChars n = c :: t ∧ isDig c = true ∧
    (1 ≤ n → ¬ c = '0') := by
  intro n
  induction n using Nat.strong_induction_on with
  | _ n ih =>
    by_cases h : n < 10
    · refine ⟨digitChar n, [], natChars_lt_ten h, digitChar_isDig n h, ?_⟩
      intro h1
      exact digitChar_ne_zero n h h1
    · obtain ⟨c, t, hct, hd, hz⟩ := ih (n / 10) (by omega)
      refine ⟨c, t ++ [digitChar (n % 10)], ?_, hd, ?_⟩
      · rw [natChars_ge_ten h, hct]
        rfl
      · intro _
        exact hz (by omega)

/-- Folding digit accumulation over a list, from any accumulator. -/
theorem digitsVal_general : ∀ (ds : List Char) (acc : Nat),
    List.foldl (fun a c => a * 10 + (c.toNat - 48)) acc ds =
      acc * 10 ^ ds.length + digitsVal ds := by
  intro ds
  induction ds with
  | nil => intro acc; simp [digitsVal]
  | cons c ds ih =>
    intro acc
    rw [List.foldl_cons, ih (acc * 10 + (c.toNat - 48))]
    have h2 : digitsVal (c :: ds) =
        (c.toNat - 48) * 10 ^ ds.length + digitsVal ds := by
      show List.foldl _ 0 (c :: ds) = _
      rw [List.foldl_cons]
      have h0 : 0 * 10 + (c.toNat - 48) = c.toNat - 48 := by omega
      rw [h0, ih (c.toNat - 48)]
    rw [h2, List.length_cons, Nat.pow_succ]
    ring

/-- Value of concatenated digit runs. -/
theorem digitsVal_append (a b : List Char) :
    digitsVal (a ++ b) = digitsVal a * 10 ^ b.length + digitsVal b := by
  rw [digitsVal, List.foldl_append, ← digitsVal, digitsVal_general]

/-- Reading back the printed digits of a number. -/
theorem digitsVal_natChars : ∀ n, digitsVal (natChars n) = n := by
  intro n
  induction n using Nat.strong_induction_on with
  | _ n ih =>
    by_cases h : n < 10
    · rw [natChars_lt_ten h]
      rw [digitsVal, List.foldl_cons, digitChar_toNat n h]
      simp [digitsVal]
    · rw [natChars_ge_ten h, digitsVal_append, ih (n / 10) (by omega)]
      rw [digitsVal, List.foldl_cons, digitChar_toNat _ (Nat.mod_lt _ (by norm_num))]
      simp [digitsVal]
      omega

/-- A number below 10^f prints in at most f digits, for positive f. -/
theorem natChars_length_le : ∀ n f, 1 ≤ f → n < 10 ^ f →
    (natChars n).length ≤ f := by
  intro n
  induction n using Nat.strong_induction_on with
  | _ n ih =>
    intro f hf hn
    by_cases h : n < 10
    · rw [natChars_lt_ten h]
      simpa using hf
    · rw [natChars_ge_ten h, List.length_append]
      have hf2 : 2 ≤ f := by
        by_contra hc
        have : f = 1 := by omega
        subst this
        simp at hn
        omega
      have : n / 10 < 10 ^ (f - 1) := by
        have h10 : 10 ^ f = 10 ^ (f - 1) * 10 := by
          have : f - 1 + 1 = f := by omega
          rw [← this, Nat.pow_succ]
          simp
        omega
      have := ih (n / 10) (by omega) (f - 1) (by omega) this
      simp only [List.length_singleton]
      omega

/-- The zero-fill keeps every character a digit. -/
theorem padDigits_all_digits (f v : Nat) :
    ∀ c ∈ padDigits f v, isDig c = true := by
  intro c hc
  rw [padDigits] at hc
  rcases List.mem_append.mp hc with hc | hc
  · rw [List.eq_of_mem_replicate hc]
    rfl
  · exact natChars_all_digits v c hc

/-- The zero-filled fraction has exactly f digits. -/
theorem padDigits_length (f v : Nat) (hf : 1 ≤ f) (hv : v < 10 ^ f) :
    (padDigits f v).length = f := by
  rw [padDigits, List.length_append, List.length_replicate]
  have := natChars_length_le v f hf hv
  omega

/-- Leading zeros do not change a digit run's value. -/
theorem digitsVal_replicate_zero : ∀ k ds,
    digitsVal (List.replicate k '0' ++ ds) = digitsVal ds := by
  intro k
  induction k with
  | zero => intro ds; rfl
  | succ k ih =>
    intro ds
    rw [List.replicate_succ, List.cons_append, digitsVal, List.foldl_cons]
    have : (0 * 10 + (('0').toNat - 48)) = 0 := rfl
    rw [this, ← digitsVal, ih]

/-- Reading back the zero-filled fraction digits. -/
theorem digitsVal_padDigits (f v : Nat) :
    digitsVal (padDigits f v) = v := by
  rw [padDigits, digitsVal_replicate_zero, digitsVal_natChars]

/-- A run of digits followed by a non-digit boundary splits exactly at
the boundary under takeWhile/dropWhile. -/
theorem takeWhile_digit_run : ∀ (ds rest : List Char),
    (∀ c ∈ ds, isDig c = true) →
    (∀ c r, rest = c :: r → isDig c = false) →
    (ds ++ rest).takeWhile isDig = ds ∧
    (ds ++ rest).dropWhile isDig = rest := by
  intro ds
  induction ds with
  | nil =>
    intro rest _ hrest
    cases rest with
    | nil => exact ⟨rfl, rfl⟩
    | cons c r =>
      constructor
      · simp [List.takeWhile_cons, hrest c r rfl]
      · simp [List.dropWhile_cons, hrest c r rfl]
  | cons d ds ih =>
    intro rest hds hrest
    have hd : isDig d = true := hds d (List.mem_cons_self d ds)
    obtain ⟨h1, h2⟩ := ih rest (fun c hc => hds c (List.mem_cons_of_mem d hc)) hrest
    constructor
    · rw [List.cons_append, List.takeWhile_cons, hd]
      simp [h1]
    · rw [List.cons_append, List.dropWhile_cons, hd]
      simpa using h2

/-- The heads a serialized value may stop at extend no number token. -/
theorem stopRest_facts {rest : List Char} (h : stopRest rest) :
    ∀ c r, rest = c :: r →
    isDig c = false ∧ ¬ c = '.' ∧ ¬ (c = 'e' ∨ c = 'E') ∧ ¬ c = '-' := by
  intro c r hcr
  rcases h with rfl | ⟨c2, r2, hc2, hor⟩
  · cases hcr
  · rw [hcr] at hc2
    obtain ⟨he1, _⟩ := List.cons.injEq c r c2 r2 ▸ hc2
    rcases hor with rfl | rfl | rfl
    all_goals subst he1
    all_goals exact ⟨rfl, by decide, by decide, by decide⟩

/-- Reading back printed integer digits. -/
theorem parseIntPart_natChars (n : Nat) (rest : List Char)
    (hrest : ∀ c r, rest = c :: r → isDig c = false) :
    parseIntPart (natChars n ++ rest) = some (n, rest) := by
  rcases Nat.eq_zero_or_pos n with rfl | hpos
  · rw [natChars_lt_ten (by norm_num)]
    rfl
  · obtain ⟨c, t, hct, hdig, hz⟩ := natChars_head n
    have hz : ¬ c = '0' := hz hpos
    rw [hct, List.cons_append, parseIntPart]
    rw [if_neg hz, if_pos hdig]
    obtain ⟨htake, hdrop⟩ := takeWhile_digit_run (c :: t) rest
      (by rw [← hct]; exact natChars_all_digits n) hrest
    rw [← List.cons_append, htake, hdrop, ← hct, digitsVal_natChars]

/-- applyExp is the identity when no exponent follows. -/
theorem applyExp_stop (mant flen : Nat) (rest : List Char)
    (hrest : ∀ c r, rest = c :: r → ¬ (c = 'e' ∨ c = 'E')) :
    applyExp mant flen rest = some ((mant, flen), rest) := by
  cases rest with
  | nil => rfl
  | cons c r =>
    rw [applyExp]
    simp [hrest c r rfl]

/-- Reading back printed integer digits with no fraction. -/
theorem parseNumAbs_int (M : Nat) (rest : List Char) (hstop : stopRest rest) :
    parseNumAbs (natChars M ++ rest) = some ((M, 0), rest) := by
  have hdig : ∀ c r, rest = c :: r → isDig c = false :=
    fun c r hcr => (stopRest_facts hstop c r hcr).1
  rw [parseNumAbs, parseIntPart_natChars M rest hdig]
  rcases hstop with rfl | ⟨c, r, rfl, hc⟩
  · rfl
  · rcases hc with rfl | rfl | rfl <;> rfl

/-- Reading back printed integer digits, a point, and the zero-filled
fraction. -/
theorem parseNumAbs_frac (M f : Nat) (hf : 1 ≤ f) (rest : List Char)
    (hstop : stopRest rest) :
    parseNumAbs (natChars (M / 10 ^ f) ++
      '.' :: (padDigits f (M % 10 ^ f) ++ rest)) = some ((M, f), rest) := by
  have hdig : ∀ c r, rest = c :: r → isDig c = false :=
    fun c r hcr => (stopRest_facts hstop c r hcr).1
  have hexp : ∀ c r, rest = c :: r → ¬ (c = 'e' ∨ c = 'E') :=
    fun c r hcr => (stopRest_facts hstop c r hcr).2.2.1
  have hppos : 0 < 10 ^ f := Nat.pos_pow_of_pos f (by norm_num)
  have hfrac : M % 10 ^ f < 10 ^ f := Nat.mod_lt _ hppos
  rw [parseNumAbs, parseIntPart_natChars (M / 10 ^ f) _
    (by intro c r hcr; cases hcr; rfl)]
  obtain ⟨htake, hdrop⟩ := takeWhile_digit_run (padDigits f (M % 10 ^ f))
    rest (padDigits_all_digits f _) hdig
  obtain ⟨d, t, hdt⟩ : ∃ d t, padDigits f (M % 10 ^ f) = d :: t := by
    rcases hpd : padDigits f (M % 10 ^ f) with _ | ⟨d, t⟩
    · have := padDigits_length f (M % 10 ^ f) hf hfrac
      rw [hpd] at this
      simp at this
      omega
    · exact ⟨d, t, rfl⟩
  have hlen : (d :: t).length = f := by
    rw [← hdt]
    exact padDigits_length f _ hf hfrac
  have hval : digitsVal (d :: t) = M % 10 ^ f := by
    rw [← hdt]
    exact digitsVal_padDigits f _
  have hM : M / 10 ^ f * 10 ^ f + M % 10 ^ f = M := Nat.div_add_mod' M _
  simp only [htake, hdrop]
  rw [hdt]
  simp only [List.isEmpty_cons, Bool.false_eq_true, if_false]
  rw [hlen, hval, hM]
  exact applyExp_stop M f rest hexp

/-- Reading back a signed decimal literal. -/
theorem parseNumber_dumps (m : Int) (f : Nat) (rest : List Char)
    (hstop : stopRest rest) :
    parseNumber (dumpsNum m f ++ rest) = some ((m, f), rest) := by
  have habs : parseNumAbs ((natChars (m.natAbs / 10 ^ f) ++
      (if f = 0 then [] else '.' :: padDigits f (m.natAbs % 10 ^ f))) ++
      rest) = some ((m.natAbs, f), rest) := by
    by_cases hfz : f = 0
    · subst hfz
      have hsh : (natChars (m.natAbs / 10 ^ 0) ++
          (if (0 : Nat) = 0 then ([] : List Char) else
            '.' :: padDigits 0 (m.natAbs % 10 ^ 0))) ++ rest =
          natChars m.natAbs ++ rest := by
        simp
      rw [hsh]
      exact parseNumAbs_int m.natAbs rest hstop
    · have hsh : (natChars (m.natAbs / 10 ^ f) ++
          (if f = 0 then ([] : List Char) else
            '.' :: padDigits f (m.natAbs % 10 ^ f))) ++ rest =
          natChars (m.natAbs / 10 ^ f) ++
            '.' :: (padDigits f (m.natAbs % 10 ^ f) ++ rest) := by
        rw [if_neg hfz]
        simp
      rw [hsh]
      exact parseNumAbs_frac m.natAbs f (by omega) rest hstop
  by_cases hm : m < 0
  · have hsh : dumpsNum m f ++ rest = '-' :: ((natChars (m.natAbs / 10 ^ f) ++
        (if f = 0 then [] else '.' :: padDigits f (m.natAbs % 10 ^ f))) ++
        rest) := by
      rw [dumpsNum, if_pos hm]
      simp
    rw [hsh, parseNumber, if_pos rfl, habs]
    have hneg : -((m.natAbs : Nat) : Int) = m := by omega
    rw [Option.map_some', hneg]
  · obtain ⟨c, t, hct, hd, _⟩ := natChars_head (m.natAbs / 10 ^ f)
    have hcne : ¬ c = '-' := ne_of_isDig hd (by decide)
    have hsh : dumpsNum m f ++ rest = c :: (t ++
        ((if f = 0 then [] else '.' :: padDigits f (m.natAbs % 10 ^ f)) ++
        rest)) := by
      rw [dumpsNum, if_neg hm, hct]
      simp
    have hback : c :: (t ++
        ((if f = 0 then [] else '.' :: padDigits f (m.natAbs % 10 ^ f)) ++
        rest)) = (natChars (m.natAbs / 10 ^ f) ++
        (if f = 0 then [] else '.' :: padDigits f (m.natAbs % 10 ^ f))) ++
        rest := by
      rw [hct]
      simp
    rw [hsh, parseNumber, if_neg hcne, hback, habs]
    have hpos : ((m.natAbs : Nat) : Int) = m := by omega
    rw [Option.map_some', hpos]

/-- The first character of a dumped number is a minus sign or a digit. -/
theorem dumpsNum_head (m : Int) (f : Nat) :
    ∃ c t, dumpsNum m f = c :: t ∧ (c = '-' ∨ isDig c = true) := by
  by_cases hm : m < 0
  · refine ⟨'-', natChars (m.natAbs / 10 ^ f) ++
      (if f = 0 then [] else '.' :: padDigits f (m.natAbs % 10 ^ f)), ?_,
      Or.inl rfl⟩
    rw [dumpsNum, if_pos hm]
    rfl
  · obtain ⟨c, t, hct, hd, _⟩ := natChars_head (m.natAbs / 10 ^ f)
    refine ⟨c, t ++
      (if f = 0 then [] else '.' :: padDigits f (m.natAbs % 10 ^ f)), ?_,
      Or.inr hd⟩
    rw [dumpsNum, if_neg hm, hct]
    rfl

/-- A number's head character is no whitespace and none of the other
dispatch characters of the value parser. -/
theorem numHead_not_misc (c : Char) (h : c = '-' ∨ isDig c = true) :
    isJsonWs c = false ∧ ¬ c = 'n' ∧ ¬ c = 't' ∧ ¬ c = 'f' ∧ ¬ c = '"' ∧
    ¬ c = '[' ∧ ¬ c = '\x7b' := by
  rcases h with rfl | hd
  · exact ⟨rfl, by decide, by decide, by decide, by decide, by decide,
      by decide⟩
  · obtain ⟨hb1, hb2⟩ := isDig_bounds hd
    refine ⟨?_, ?_, ?_, ?_, ?_, ?_, ?_⟩
    · rw [isJsonWs]
      have w1 : ¬ c = ' ' := ne_of_isDig hd (by decide)
      have w2 : ¬ c = '\t' := ne_of_isDig hd (by decide)
      have w3 : ¬ c = '\n' := ne_of_isDig hd (by decide)
      have w4 : ¬ c = '\r' := ne_of_isDig hd (by decide)
      simp [w1, w2, w3, w4]
    all_goals exact ne_of_isDig hd (by decide)

/-- The value parser reads a dumped number followed by a stopper. -/
theorem parseValue_num (fuel : Nat) (m : Int) (f : Nat) (rest : List Char)
    (hstop : stopRest rest) :
    parseValue (fuel + 1) (dumpsNum m f ++ rest) =
      some (.num m f, rest) := by
  obtain ⟨c, t, hct, hdisp⟩ := dumpsNum_head m f
  obtain ⟨hws, hn, ht, hf, hq, hbr, hbc⟩ := numHead_not_misc c hdisp
  have hback : c :: (t ++ rest) = dumpsNum m f ++ rest := by
    rw [hct]
    rfl
  rw [hct, List.cons_append, parseValue, skipWs_not_ws hws]
  simp only [if_neg hn, if_neg ht, if_neg hf, if_neg hq, if_neg hbr,
    if_neg hbc, if_pos hdisp]
  rw [hback, parseNumber_dumps m f rest hstop]
  rfl

/-- A dumped value starts with a non-whitespace character that is not a
closing bracket, closing brace, or comma. -/
theorem dumpsV_head (X : JsonValue) : ∃ c t, dumpsV X = c :: t ∧
    isJsonWs c = false ∧ ¬ c = ']' ∧ ¬ c = '\x7d' ∧ ¬ c = ',' := by
  cases X with
  | null =>
    refine ⟨'n', ['u', 'l', 'l'], ?_, rfl, by decide, by decide, by decide⟩
    simp [dumpsV]
  | bool b =>
    cases b
    · refine ⟨'f', ['a', 'l', 's', 'e'], ?_, rfl, by decide, by decide,
        by decide⟩
      simp [dumpsV]
    · refine ⟨'t', ['r', 'u', 'e'], ?_, rfl, by decide, by decide, by decide⟩
      simp [dumpsV]
  | num m f =>
    obtain ⟨c, t, hct, hd⟩ := dumpsNum_head m f
    refine ⟨c, t, by rw [← hct]; simp [dumpsV], ?_, ?_, ?_, ?_⟩
    · exact (numHead_not_misc c hd).1
    · rcases hd with rfl | hd
      · decide
      · exact ne_of_isDig hd (by decide)
    · rcases hd with rfl | hd
      · decide
      · exact ne_of_isDig hd (by decide)
    · rcases hd with rfl | hd
      · decide
      · exact ne_of_isDig hd (by decide)
  | str s =>
    refine ⟨'"', escList s.data ++ ['"'], ?_, rfl, by decide, by decide,
      by decide⟩
    simp [dumpsV, dumpsStr]
  | arr items =>
    cases items with
    | nil =>
      refine ⟨'[', [']'], ?_, rfl, by decide, by decide, by decide⟩
      simp [dumpsV]
    | cons x xs =>
      refine ⟨'[', dumpsList x xs ++ [']'], ?_, rfl, by decide, by decide,
        by decide⟩
      simp [dumpsV]
  | obj kvs =>
    cases kvs with
    | nil =>
      refine ⟨'\x7b', ['\x7d'], ?_, rfl, by decide, by decide, by decide⟩
      simp [dumpsV]
    | cons kv kvs =>
      refine ⟨'\x7b', dumpsFields kv kvs ++ ['\x7d'], ?_, rfl, by decide,
        by decide, by decide⟩
      simp [dumpsV]

/-- skipWs absorbs a leading space. -/
theorem skipWs_space (Z : List Char) : skipWs (' ' :: Z) = skipWs Z := by
  rw [skipWs]
  rfl

/-- The value parser ignores a leading space. -/
theorem parseValue_space (fuel : Nat) (Z : List Char) :
    parseValue fuel (' ' :: Z) = parseValue fuel Z := by
  cases fuel with
  | zero => rfl
  | succ n =>
    simp only [parseValue]
    rw [skipWs_space]

/-- The item parser ignores a leading space. -/
theorem parseItems_space (fuel : Nat) (Z : List Char) :
    parseItems fuel (' ' :: Z) = parseItems fuel Z := by
  cases fuel with
  | zero => rfl
  | succ n =>
    simp only [parseItems]
    rw [parseValue_space]

/-- The field parser ignores a leading space. -/
theorem parseFields_space (fuel : Nat) (Z : List Char) :
    parseFields fuel (' ' :: Z) = parseFields fuel Z := by
  cases fuel with
  | zero => rfl
  | succ n =>
    simp only [parseFields]
    rw [skipWs_space]

/-- The value parser reads the literal null. -/
theorem parseValue_null (fuel : Nat) (rest : List Char) :
    parseValue (fuel + 1) (dumpsV .null ++ rest) = some (.null, rest) := by
  rw [show dumpsV .null = ['n', 'u', 'l', 'l'] from by simp [dumpsV]]
  rfl

/-- The value parser reads the literal true. -/
theorem parseValue_true (fuel : Nat) (rest : List Char) :
    parseValue (fuel + 1) (dumpsV (.bool true) ++ rest) =
      some (.bool true, rest) := by
  rw [show dumpsV (.bool true) = ['t', 'r', 'u', 'e'] from by simp [dumpsV]]
  rfl

/-- The value parser reads the literal false. -/
theorem parseValue_false (fuel : Nat) (rest : List Char) :
    parseValue (fuel + 1) (dumpsV (.bool false) ++ rest) =
      some (.bool false, rest) := by
  rw [show dumpsV (.bool false) = ['f', 'a', 'l', 's', 'e'] from by
    simp [dumpsV]]
  rfl

/-- Inserting into a dict whose keys avoid the new key appends. -/
theorem insertUpd_fresh (acc : List (String × JsonValue))
    (kv : String × JsonValue)
    (h : acc.any (fun q => q.1 == kv.1) = false) :
    insertUpd acc kv = acc ++ [kv] := by
  rw [insertUpd, h]
  rfl

/-- Folding dict insertion over fields with fresh, pairwise distinct
keys appends them all. -/
theorem foldl_insertUpd (ps : List (String × JsonValue)) :
    ∀ acc, nodupKeys ps = true →
    (∀ p ∈ ps, acc.any (fun q => q.1 == p.1) = false) →
    List.foldl insertUpd acc ps = acc ++ ps := by
  induction ps with
  | nil => intro acc _ _; simp
  | cons p ps ih =>
    intro acc hnd hdisj
    rw [nodupKeys] at hnd
    obtain ⟨hp, hnd2⟩ := by
      have := hnd
      rw [Bool.and_eq_true] at this
      exact this
    have hfresh := hdisj p (List.mem_cons_self p ps)
    rw [List.foldl_cons, insertUpd_fresh acc p hfresh,
      ih (acc ++ [p]) hnd2 ?_]
    · simp
    · intro q hq
      rw [List.any_append, Bool.or_eq_false_iff]
      constructor
      · exact hdisj q (List.mem_cons_of_mem p hq)
      · simp only [List.any_cons, List.any_nil, Bool.or_false]
        have : ¬ q.1 = p.1 := by
          intro he
          have : ps.any (fun x => x.1 == p.1) = true :=
            List.any_eq_true.mpr ⟨q, hq, by simp [he]⟩
          rw [Bool.not_eq_eq_eq_not, Bool.not_true] at hp
          rw [hp] at this
          cases this
        have hne2 : ¬ p.1 = q.1 := fun he => this he.symm
        simp [hne2]

/-- Parsed fields with pairwise distinct keys build back to themselves. -/
theorem buildDict_nodup (ps : List (String × JsonValue))
    (h : nodupKeys ps = true) : buildDict ps = ps := by
  rw [buildDict, foldl_insertUpd ps [] h (by intro p _; rfl)]
  rfl

/-- Every value needs at least one unit of fuel. -/
theorem needV_pos (X : JsonValue) : 1 ≤ needV X := by
  cases X <;> simp only [needV] <;> omega

/-- Every item sequence needs at least one unit of fuel. -/
theorem needItems_pos (items : List JsonValue) : 1 ≤ needItems items := by
  cases items <;> simp only [needItems] <;> omega

/-- Every field sequence needs at least one unit of fuel. -/
theorem needFields_pos (kvs : List (String × JsonValue)) :
    1 ≤ needFields kvs := by
  cases kvs with
  | nil => simp [needFields]
  | cons kv kvs =>
    cases kv
    simp only [needFields]
    omega

/-- The escaped body of a string followed by the closing quote reads
back as the original characters, for any sufficient fuel. -/
theorem psb_escList : ∀ (l : List Char) (fuel : Nat) (rest : List Char),
    l.length < fuel →
    parseStringBody fuel (escList l ++ '"' :: rest) = some (l, rest) := by
  intro l
  induction l with
  | nil =>
    intro fuel rest hf
    match fuel, hf with
    | k + 1, _ => rfl
  | cons c l ih =>
    intro fuel rest hf
    match fuel, hf with
    | k + 1, hf =>
      rw [escList, List.append_assoc, psb_escape c k,
        ih k rest (by simpa using Nat.lt_of_succ_lt_succ hf)]
      rfl

/-- The value parser reads a dumped string. -/
theorem parseValue_str (fuel : Nat) (s : String) (rest : List Char) :
    parseValue (fuel + 1) (dumpsStr s ++ rest) = some (.str s, rest) := by
  have hsh : dumpsStr s ++ rest = '"' :: (escList s.data ++ '"' :: rest) := by
    rw [dumpsStr]
    simp
  rw [hsh, parseValue]
  have hws : isJsonWs '"' = false := rfl
  rw [skipWs_not_ws hws]
  simp only [if_neg (by decide : ¬ ('"' : Char) = 'n'),
    if_neg (by decide : ¬ ('"' : Char) = 't'),
    if_neg (by decide : ¬ ('"' : Char) = 'f'), if_pos rfl]
  have hlen : s.data.length < (escList s.data ++ '"' :: rest).length + 1 := by
    rw [List.length_append]
    have := escList_length_ge s.data
    omega
  rw [psb_escList s.data _ rest hlen]
  rfl


/-- The item sequence closes after a single item at the bracket. -/
theorem parseItems_last (n : Nat) (x : JsonValue) (rest : List Char)
    (hx : parseValue n (dumpsV x ++ ']' :: rest) = some (x, ']' :: rest)) :
    parseItems (n + 1) (dumpsV x ++ ']' :: rest) = some ([x], rest) := by
  rw [parseItems, hx]
  rfl

/-- The item sequence continues after a comma-space separator. -/
theorem parseItems_more (n : Nat) (x : JsonValue) (Z rest : List Char)
    (ys : List JsonValue)
    (hx : parseValue n (dumpsV x ++ ',' :: ' ' :: Z) =
      some (x, ',' :: ' ' :: Z))
    (hi : parseItems n Z = some (ys, rest)) :
    parseItems (n + 1) (dumpsV x ++ ',' :: ' ' :: Z) =
      some (x :: ys, rest) := by
  rw [parseItems, hx]
  show (parseItems n (' ' :: Z)).map (fun p => (x :: p.1, p.2)) = _
  rw [parseItems_space, hi]
  rfl

/-- The field sequence closes after a single field at the brace. -/
theorem parseFields_last (n : Nat) (k : String) (v : JsonValue)
    (rest : List Char)
    (hv : parseValue n (dumpsV v ++ '\x7d' :: rest) =
      some (v, '\x7d' :: rest)) :
    parseFields (n + 1)
      (dumpsStr k ++ ':' :: ' ' :: (dumpsV v ++ '\x7d' :: rest)) =
      some ([(k, v)], rest) := by
  have hsh : dumpsStr k ++ ':' :: ' ' :: (dumpsV v ++ '\x7d' :: rest) =
      '"' :: (escList k.data ++ '"' ::
        (':' :: ' ' :: (dumpsV v ++ '\x7d' :: rest))) := by
    rw [dumpsStr]
    simp
  have hlen : k.data.length < (escList k.data ++ '"' ::
      (':' :: ' ' :: (dumpsV v ++ '\x7d' :: rest))).length + 1 := by
    rw [List.length_append]
    have := escList_length_ge k.data
    omega
  rw [hsh, parseFields, skipWs_not_ws (show isJsonWs '"' = false from rfl)]
  simp only []
  rw [if_pos trivial, psb_escList k.data _ _ hlen]
  simp only []
  rw [skipWs_not_ws (show isJsonWs ':' = false from rfl)]
  simp only []
  rw [if_pos trivial, parseValue_space, hv]
  rfl

/-- The field sequence continues after a comma-space separator. -/
theorem parseFields_more (n : Nat) (k : String) (v : JsonValue)
    (Z rest : List Char) (ps : List (String × JsonValue))
    (hv : parseValue n (dumpsV v ++ ',' :: ' ' :: Z) =
      some (v, ',' :: ' ' :: Z))
    (hf : parseFields n Z = some (ps, rest)) :
    parseFields (n + 1)
      (dumpsStr k ++ ':' :: ' ' :: (dumpsV v ++ ',' :: ' ' :: Z)) =
      some ((k, v) :: ps, rest) := by
  have hsh : dumpsStr k ++ ':' :: ' ' :: (dumpsV v ++ ',' :: ' ' :: Z) =
      '"' :: (escList k.data ++ '"' ::
        (':' :: ' ' :: (dumpsV v ++ ',' :: ' ' :: Z))) := by
    rw [dumpsStr]
    simp
  have hlen : k.data.length < (escList k.data ++ '"' ::
      (':' :: ' ' :: (dumpsV v ++ ',' :: ' ' :: Z))).length + 1 := by
    rw [List.length_append]
    have := escList_length_ge k.data
    omega
  rw [hsh, parseFields, skipWs_not_ws (show isJsonWs '"' = false from rfl)]
  simp only []
  rw [if_pos trivial, psb_escList k.data _ _ hlen]
  simp only []
  rw [skipWs_not_ws (show isJsonWs ':' = false from rfl)]
  simp only []
  rw [if_pos trivial, parseValue_space, hv]
  simp only []
  rw [skipWs_not_ws (show isJsonWs ',' = false from rfl)]
  simp only []
  rw [if_pos trivial, parseFields_space, hf]
  rfl

/-- A dumped nonempty item sequence starts like its first value. -/
theorem dumpsList_head (x : JsonValue) (xs : List JsonValue) :
    ∃ c t, dumpsList x xs = c :: t ∧ isJsonWs c = false ∧ ¬ c = ']' ∧
      ¬ c = '\x7d' := by
  obtain ⟨c, t0, hct, hws, h1, h2, _⟩ := dumpsV_head x
  cases xs with
  | nil => exact ⟨c, t0, by rw [dumpsList, hct], hws, h1, h2⟩
  | cons y ys =>
    refine ⟨c, t0 ++ ',' :: ' ' :: dumpsList y ys, ?_, hws, h1, h2⟩
    rw [dumpsList, hct]
    rfl

/-- A dumped nonempty field sequence starts with the key's quote. -/
theorem dumpsFields_head (kv : String × JsonValue)
    (kvs : List (String × JsonValue)) :
    ∃ t, dumpsFields kv kvs = '"' :: t := by
  obtain ⟨k, v⟩ := kv
  cases kvs with
  | nil =>
    refine ⟨escList k.data ++ ['"'] ++ ':' :: ' ' :: dumpsV v, ?_⟩
    rw [dumpsFields, dumpsStr]
    simp
  | cons p ps =>
    refine ⟨escList k.data ++ ['"'] ++ ':' :: ' ' :: dumpsV v ++
      ',' :: ' ' :: dumpsFields p ps, ?_⟩
    rw [dumpsFields, dumpsStr]
    simp

/-- The value parser reads a dumped nonempty array given the item
sequence reads back. -/
theorem parseValue_arr_cons (n : Nat) (x : JsonValue)
    (xs : List JsonValue) (rest : List Char)
    (hi : parseItems n (dumpsList x xs ++ ']' :: rest) =
      some (x :: xs, rest)) :
    parseValue (n + 1) (dumpsV (.arr (x :: xs)) ++ rest) =
      some (.arr (x :: xs), rest) := by
  have hsh : dumpsV (.arr (x :: xs)) ++ rest =
      '[' :: (dumpsList x xs ++ ']' :: rest) := by
    rw [show dumpsV (.arr (x :: xs)) = '[' :: dumpsList x xs ++ [']'] from by
      simp [dumpsV]]
    simp
  obtain ⟨c0, t0, hct0, hws0, hnb0, _⟩ := dumpsList_head x xs
  have hsh2 : dumpsList x xs ++ ']' :: rest = c0 :: (t0 ++ ']' :: rest) := by
    rw [hct0]
    rfl
  rw [hsh, parseValue, skipWs_not_ws (show isJsonWs '[' = false from rfl)]
  simp only []
  rw [hsh2, skipWs_not_ws hws0]
  simp only []
  rw [if_neg hnb0, ← hsh2, hi]
  rfl

/-- The value parser reads a dumped nonempty object given the field
sequence reads back, rebuilding the dict. -/
theorem parseValue_obj_cons (n : Nat) (kv : String × JsonValue)
    (kvs : List (String × JsonValue)) (rest : List Char)
    (hf : parseFields n (dumpsFields kv kvs ++ '\x7d' :: rest) =
      some (kv :: kvs, rest))
    (hnd : nodupKeys (kv :: kvs) = true) :
    parseValue (n + 1) (dumpsV (.obj (kv :: kvs)) ++ rest) =
      some (.obj (kv :: kvs), rest) := by
  have hsh : dumpsV (.obj (kv :: kvs)) ++ rest =
      '\x7b' :: (dumpsFields kv kvs ++ '\x7d' :: rest) := by
    rw [show dumpsV (.obj (kv :: kvs)) =
      '\x7b' :: dumpsFields kv kvs ++ ['\x7d'] from by simp [dumpsV]]
    simp
  obtain ⟨t0, hct0⟩ := dumpsFields_head kv kvs
  have hsh2 : dumpsFields kv kvs ++ '\x7d' :: rest =
      '"' :: (t0 ++ '\x7d' :: rest) := by
    rw [hct0]
    rfl
  rw [hsh, parseValue, skipWs_not_ws (show isJsonWs '\x7b' = false from rfl)]
  simp only []
  rw [hsh2, skipWs_not_ws (show isJsonWs '"' = false from rfl)]
  simp only []
  rw [if_neg (show ¬ ('"' : Char) = '\x7d' from by decide), ← hsh2, hf,
    Option.map_some', buildDict_nodup _ hnd]
  rfl

/-- The round trip at every fuel level: a well-formed dumped value, item
sequence, or field sequence parses back to itself given enough fuel and
a legitimate stopper after it. -/
theorem parse_dumps : ∀ fuel : Nat,
    (∀ X rest, wfB X = true → needV X ≤ fuel → stopRest rest →
      parseValue fuel (dumpsV X ++ rest) = some (X, rest)) ∧
    (∀ x xs rest, wfList (x :: xs) = true → needItems (x :: xs) ≤ fuel →
      parseItems fuel (dumpsList x xs ++ ']' :: rest) =
        some (x :: xs, rest)) ∧
    (∀ kv kvs rest, wfFields (kv :: kvs) = true →
      needFields (kv :: kvs) ≤ fuel →
      parseFields fuel (dumpsFields kv kvs ++ '\x7d' :: rest) =
        some (kv :: kvs, rest)) := by
  intro fuel
  induction fuel with
  | zero =>
    refine ⟨?_, ?_, ?_⟩
    · intro X rest _ hneed _
      have := needV_pos X
      omega
    · intro x xs rest _ hneed
      have := needItems_pos (x :: xs)
      omega
    · intro kv kvs rest _ hneed
      have := needFields_pos (kv :: kvs)
      omega
  | succ n ih =>
    obtain ⟨ihV, ihI, ihF⟩ := ih
    refine ⟨?_, ?_, ?_⟩
    · intro X rest hwf hneed hstop
      cases X with
      | null => exact parseValue_null n rest
      | bool b =>
        cases b
        · exact parseValue_false n rest
        · exact parseValue_true n rest
      | num m f =>
        rw [show dumpsV (.num m f) = dumpsNum m f from by simp [dumpsV]]
        exact parseValue_num n m f rest hstop
      | str s =>
        rw [show dumpsV (.str s) = dumpsStr s from by simp [dumpsV]]
        exact parseValue_str n s rest
      | arr items =>
        cases items with
        | nil =>
          rw [show dumpsV (.arr []) = ['[', ']'] from by simp [dumpsV]]
          rfl
        | cons x xs =>
          simp only [wfB] at hwf
          simp only [needV] at hneed
          exact parseValue_arr_cons n x xs rest
            (ihI x xs rest hwf (by omega))
      | obj kvs =>
        cases kvs with
        | nil =>
          rw [show dumpsV (.obj []) = ['\x7b', '\x7d'] from by simp [dumpsV]]
          rfl
        | cons kv kvs =>
          simp only [wfB, Bool.and_eq_true] at hwf
          simp only [needV] at hneed
          exact parseValue_obj_cons n kv kvs rest
            (ihF kv kvs rest hwf.2 (by omega)) hwf.1
    · intro x xs rest hwf hneed
      simp only [wfList, Bool.and_eq_true] at hwf
      simp only [needItems] at hneed
      have hmaxl := Nat.le_max_left (needV x) (needItems xs)
      have hmaxr := Nat.le_max_right (needV x) (needItems xs)
      cases xs with
      | nil =>
        have hstop : stopRest (']' :: rest) :=
          Or.inr ⟨']', rest, rfl, Or.inr (Or.inl rfl)⟩
        have hx := ihV x (']' :: rest) hwf.1 (by omega) hstop
        rw [show dumpsList x [] = dumpsV x from by simp [dumpsList]]
        exact parseItems_last n x rest hx
      | cons y ys =>
        have hstop : stopRest (',' :: ' ' ::
            (dumpsList y ys ++ ']' :: rest)) :=
          Or.inr ⟨',', _, rfl, Or.inl rfl⟩
        have hx := ihV x (',' :: ' ' :: (dumpsList y ys ++ ']' :: rest))
          hwf.1 (by omega) hstop
        have hi := ihI y ys rest hwf.2 (by omega)
        have hsh : dumpsList x (y :: ys) ++ ']' :: rest =
            dumpsV x ++ ',' :: ' ' :: (dumpsList y ys ++ ']' :: rest) := by
          rw [dumpsList]
          simp
        rw [hsh]
        exact parseItems_more n x _ rest (y :: ys) hx hi
    · intro kv kvs rest hwf hneed
      obtain ⟨k, v⟩ := kv
      simp only [wfFields, Bool.and_eq_true] at hwf
      simp only [needFields] at hneed
      have hmaxl := Nat.le_max_left (needV v) (needFields kvs)
      have hmaxr := Nat.le_max_right (needV v) (needFields kvs)
      cases kvs with
      | nil =>
        have hstop : stopRest ('\x7d' :: rest) :=
          Or.inr ⟨'\x7d', rest, rfl, Or.inr (Or.inr rfl)⟩
        have hv := ihV v ('\x7d' :: rest) hwf.1 (by omega) hstop
        have hsh : dumpsFields (k, v) [] ++ '\x7d' :: rest =
            dumpsStr k ++ ':' :: ' ' :: (dumpsV v ++ '\x7d' :: rest) := by
          rw [dumpsFields]
          simp
        rw [hsh]
        exact parseFields_last n k v rest hv
      | cons p ps =>
        have hstop : stopRest (',' :: ' ' ::
            (dumpsFields p ps ++ '\x7d' :: rest)) :=
          Or.inr ⟨',', _, rfl, Or.inl rfl⟩
        have hv := ihV v (',' :: ' ' :: (dumpsFields p ps ++ '\x7d' :: rest))
          hwf.1 (by omega) hstop
        have hf := ihF p ps rest hwf.2 (by omega)
        have hsh : dumpsFields (k, v) (p :: ps) ++ '\x7d' :: rest =
            dumpsStr k ++ ':' :: ' ' ::
              (dumpsV v ++ ',' :: ' ' ::
                (dumpsFields p ps ++ '\x7d' :: rest)) := by
          rw [dumpsFields]
          simp
        rw [hsh]
        exact parseFields_more n k v _ rest (p :: ps) hv hf

/-- Every JsonValue has positive size. -/
theorem sizeOf_jv_pos (X : JsonValue) : 1 ≤ sizeOf X := by
  cases X <;> simp <;> omega

/-- Every item list has positive size. -/
theorem sizeOf_jlist_pos (l : List JsonValue) : 1 ≤ sizeOf l := by
  cases l <;> simp <;> omega

/-- Every field list has positive size. -/
theorem sizeOf_flist_pos (l : List (String × JsonValue)) : 1 ≤ sizeOf l := by
  cases l <;> simp <;> omega

/-- The dump of a value is never empty. -/
theorem dumpsV_length_pos (X : JsonValue) : 1 ≤ (dumpsV X).length := by
  obtain ⟨c, t, hct, _⟩ := dumpsV_head X
  rw [hct, List.length_cons]
  omega

/-- The fuel needed to parse a dump back is at most twice the dump's
length, so json.loads's fuel budget always suffices. -/
theorem needBound : ∀ n : Nat,
    (∀ X, sizeOf X ≤ n → needV X ≤ 2 * (dumpsV X).length) ∧
    (∀ x xs, sizeOf x + sizeOf xs ≤ n →
      needItems (x :: xs) ≤ 2 * (dumpsList x xs).length + 1) ∧
    (∀ kv kvs, sizeOf kv + sizeOf kvs ≤ n →
      needFields (kv :: kvs) ≤ 2 * (dumpsFields kv kvs).length + 1) := by
  intro n
  induction n with
  | zero =>
    refine ⟨?_, ?_, ?_⟩
    · intro X hs
      have := sizeOf_jv_pos X
      omega
    · intro x xs hs
      have h1 := sizeOf_jv_pos x
      have h2 := sizeOf_jlist_pos xs
      omega
    · intro kv kvs hs
      obtain ⟨k, v⟩ := kv
      have h1 := sizeOf_flist_pos kvs
      simp only [Prod.mk.sizeOf_spec] at hs
      omega
  | succ n ih =>
    obtain ⟨ihV, ihI, ihF⟩ := ih
    refine ⟨?_, ?_, ?_⟩
    · intro X hs
      cases X with
      | null => simp [needV, dumpsV]
      | bool b => cases b <;> simp [needV, dumpsV]
      | num m f =>
        obtain ⟨c, t, hct, _⟩ := dumpsNum_head m f
        rw [show dumpsV (.num m f) = dumpsNum m f from by simp [dumpsV], hct]
        simp only [needV, List.length_cons]
        omega
      | str s =>
        rw [show dumpsV (.str s) = dumpsStr s from by simp [dumpsV], dumpsStr]
        simp only [needV, List.length_append, List.length_cons]
        omega
      | arr items =>
        cases items with
        | nil => simp [needV, needItems, dumpsV]
        | cons x xs =>
          have hx : sizeOf x + sizeOf xs ≤ n := by
            simp only [JsonValue.arr.sizeOf_spec, List.cons.sizeOf_spec] at hs
            omega
          have hi := ihI x xs hx
          rw [show dumpsV (.arr (x :: xs)) = '[' :: dumpsList x xs ++ [']']
            from by simp [dumpsV]]
          simp only [needV, List.length_cons, List.length_append,
            List.length_singleton]
          omega
      | obj kvs0 =>
        cases kvs0 with
        | nil => simp [needV, needFields, dumpsV]
        | cons kv kvs =>
          have hx : sizeOf kv + sizeOf kvs ≤ n := by
            simp only [JsonValue.obj.sizeOf_spec, List.cons.sizeOf_spec] at hs
            omega
          have hf := ihF kv kvs hx
          rw [show dumpsV (.obj (kv :: kvs)) =
            '\x7b' :: dumpsFields kv kvs ++ ['\x7d'] from by simp [dumpsV]]
          simp only [needV, List.length_cons, List.length_append,
            List.length_singleton]
          omega
    · intro x xs hs
      have hxn : sizeOf x ≤ n := by
        have := sizeOf_jlist_pos xs
        omega
      have hVx := ihV x hxn
      cases xs with
      | nil =>
        rw [show dumpsList x [] = dumpsV x from by rw [dumpsList]]
        have hrw : needItems [x] = 1 + max (needV x) 1 := by
          simp only [needItems]
        rw [hrw]
        have h1 := dumpsV_length_pos x
        omega
      | cons y ys =>
        have hyn : sizeOf y + sizeOf ys ≤ n := by
          have := sizeOf_jv_pos x
          simp only [List.cons.sizeOf_spec] at hs
          omega
        have hI := ihI y ys hyn
        rw [show dumpsList x (y :: ys) =
          dumpsV x ++ ',' :: ' ' :: dumpsList y ys from by rw [dumpsList]]
        have hrw : needItems (x :: y :: ys) =
            1 + max (needV x) (needItems (y :: ys)) := by
          simp only [needItems]
        rw [hrw]
        simp only [List.length_append, List.length_cons]
        omega
    · intro kv kvs hs
      obtain ⟨k, v⟩ := kv
      have hvn : sizeOf v ≤ n := by
        have h1 := sizeOf_flist_pos kvs
        simp only [Prod.mk.sizeOf_spec] at hs
        omega
      have hVv := ihV v hvn
      cases kvs with
      | nil =>
        rw [show dumpsFields (k, v) [] = dumpsStr k ++ ':' :: ' ' :: dumpsV v
          from by rw [dumpsFields]]
        have hrw : needFields [(k, v)] = 1 + max (needV v) 1 := by
          simp only [needFields]
        rw [hrw]
        have h1 := dumpsV_length_pos v
        simp only [List.length_append, List.length_cons]
        omega
      | cons p ps =>
        have hpn : sizeOf p + sizeOf ps ≤ n := by
          simp only [Prod.mk.sizeOf_spec, List.cons.sizeOf_spec] at hs
          omega
        have hF := ihF p ps hpn
        rw [show dumpsFields (k, v) (p :: ps) = dumpsStr k ++ ':' :: ' ' ::
          dumpsV v ++ ',' :: ' ' :: dumpsFields p ps from by rw [dumpsFields]]
        have hrw : needFields ((k, v) :: p :: ps) =
            1 + max (needV v) (needFields (p :: ps)) := by
          simp only [needFields]
        rw [hrw]
        simp only [List.length_append, List.length_cons]
        omega

/-- json.loads inverts json.dumps on every Python-representable value:
the parse succeeds, consumes the whole input, and returns the value. -/
theorem json_loads_serialize (X : JsonValue) (hwf : wfB X = true) :
    json_loads (serialize X) = .ok X := by
  have hb := (needBound (sizeOf X)).1 X (Nat.le_refl _)
  have hp := (parse_dumps (2 * (dumpsV X).length + 2)).1 X [] hwf (by omega)
    (Or.inl rfl)
  rw [List.append_nil] at hp
  show (match parseValue (2 * (dumpsV X).length + 2) (dumpsV X) with
    | some (v, rest) =>
      if skipWs rest = [] then Except.ok v else Except.error ()
    | none => Except.error ()) = Except.ok X
  rw [hp]
  rfl

/-- C7: normalizer round-trip.  For every JSON value X representable as
a Python object (equivalently, with pairwise-distinct keys in every
object, the wfB predicate), normalizing the serialization of X returns
X itself: stage 1 of _parse_suggestion (cleaning.py line 78) parses the
entire input with json.loads and returns it verbatim, and json.loads
inverts json.dumps exactly. -/
theorem c7_normalize_serialize_roundtrip (X : JsonValue)
    (hwf : wfB X = true) : parse_suggestion (serialize X) = X := by
  unfold parse_suggestion
  rw [json_loads_serialize X hwf]

theorem c7_witness :
    wfB (JsonValue.obj [("status", JsonValue.str "clean")]) = true ∧
    parse_suggestion (serialize
        (JsonValue.obj [("status", JsonValue.str "clean")])) =
      JsonValue.obj [("status", JsonValue.str "clean")] :=
  ⟨by simp [wfB, wfFields, nodupKeys],
    c7_normalize_serialize_roundtrip _ (by simp [wfB, wfFields, nodupKeys])⟩

end CleanStream
